import Mathlib

/-!
Verification of the confy path-resolution and shadow-type binding engine.

The Go source is shallowly embedded: struct types become `GoType`
(mutually inductive with the field list `GoFields`), runtime values become
`GoVal` (mutually with `GoVals`), and each reflection helper of the source
(`getFields`, `setField`, `setArray`, `setStruct`, `createModifiedType`,
`resolvePath`, `maskSensitive`, the struct-tag scanner, and the source
dispatch loop of `Config`) is translated into an executable Lean function
over that embedding.  Strings are treated byte-for-byte as ASCII character
lists; Go runtime panics are modelled as `Option`/`Except` failures.
-/

/-! ### Go string helpers -/

/-- Models strings.Split with a single-character separator: Go returns the
list of substrings between separators, with `Split "" sep = [""]`. -/
def goSplit (s : String) (sep : Char) : List String :=
  ((s.toList).splitOn sep).map String.mk

/-- Models strings.TrimSpace: drop whitespace from both ends. -/
def goTrimSpace (s : String) : String :=
  String.mk (((s.toList.dropWhile Char.isWhitespace).reverse.dropWhile
    Char.isWhitespace).reverse)

/-! ### Struct-tag scanner

Transcribes the scanning loop shared by reflect.StructTag.Lookup and the
source function getAllTagNames (part_001 lines 114-158): skip spaces, scan
a key up to a colon, then a double-quoted value in which a backslash
escapes the next character.  Tags are treated as ASCII; the escape
processing of strconv.Unquote is modelled for the plain and
backslash-escaped characters only (the tags this repository consumes
contain no escapes). -/

/-- Characters allowed in a tag key: byte above space, not colon, quote or
DEL, exactly the loop condition of the source scanner. -/
def nameChar (c : Char) : Bool :=
  decide (32 < c.toNat) && !(c == ':') && !(c == '"') && !(c.toNat == 127)

/-- Scan a quoted tag value after the opening quote: stops at an unescaped
closing quote, a backslash skips the following character; `none` models
running off the end of the tag (the Go loop breaks without emitting the
pair). Returns the raw value characters and the remainder after the
closing quote. -/
def scanQuoted : List Char → Option (List Char × List Char)
  | [] => none
  | c :: rest =>
    if c == '"' then some ([], rest)
    else if c == '\\' then
      match rest with
      | [] => none
      | c2 :: rest2 => (scanQuoted rest2).map (fun p => ('\\' :: c2 :: p.1, p.2))
    else (scanQuoted rest).map (fun p => (c :: p.1, p.2))

/-- Collapse backslash escapes in a scanned tag value (the strconv.Unquote
step of reflect.StructTag.Lookup, restricted to identity escapes plus the
common newline and tab escapes). -/
def unescapeChars : List Char → List Char
  | [] => []
  | c :: rest =>
    if c == '\\' then
      match rest with
      | [] => [c]
      | c2 :: rest2 =>
        (if c2 == 'n' then '\n' else if c2 == 't' then '\t' else c2) :: unescapeChars rest2
    else c :: unescapeChars rest

/-- One fuel-indexed pass of the tag scanner; fuel only bounds the number
of key/value pairs, and a full scan always consumes at least one character
per pair, so `length + 1` fuel is always enough. -/
def tagScanAux : Nat → List Char → List (String × String)
  | 0, _ => []
  | fuel + 1, cs =>
    let cs1 := cs.dropWhile (· == ' ')
    match cs1.takeWhile nameChar, cs1.dropWhile nameChar with
    | [], _ => []
    | nm, ':' :: '"' :: rest2 =>
      match scanQuoted rest2 with
      | some p => (String.mk nm, String.mk (unescapeChars p.1)) :: tagScanAux fuel p.2
      | none => []
    | _, _ => []

/-- All key/value pairs of a struct tag, in order. -/
def tagScan (s : String) : List (String × String) :=
  tagScanAux (s.toList.length + 1) s.toList

/-- First value bound to a key in an association list. -/
def lookupFirst : List (String × String) → String → Option String
  | [], _ => none
  | p :: ps, k => if p.1 == k then some p.2 else lookupFirst ps k

/-- Models reflect.StructTag.Lookup: value of the first occurrence of the
key in the tag. -/
def tagLookup (tag key : String) : Option String :=
  lookupFirst (tagScan tag) key

/-- Transcribes getAllTagNames (part_001 lines 114-158): the keys of every
pair of the tag, in order. -/
def getAllTagNames (tag : String) : List String :=
  (tagScan tag).map (fun p => p.1)

/-! ### The data model

A Go struct type is an ordered field list; every field carries its
declared identifier, its raw struct tag, whether it is exported
(reflect CanInterface), and its type.  Scalars (numbers, strings, bools,
pointers - everything the engine copies opaquely) are collapsed into
`GoType.scalar` carrying the kind name. -/

mutual

inductive GoType : Type where
  | scalar (kind : String)
  | strct (fields : GoFields)
  | slice (elem : GoType)
  | array (n : Nat) (elem : GoType)
  deriving DecidableEq

inductive GoFields : Type where
  | nil
  | fcons (name tag : String) (exported : Bool) (ty : GoType) (rest : GoFields)
  deriving DecidableEq

end

mutual

inductive GoVal : Type where
  | scalar (payload : String)
  | strct (fields : GoVals)
  | slice (isNil : Bool) (cp : Nat) (elems : GoVals)
  | array (elems : GoVals)
  deriving DecidableEq

inductive GoVals : Type where
  | nil
  | vcons (v : GoVal) (rest : GoVals)
  deriving DecidableEq

end

/-- Number of fields of a field list. -/
def GoFields.flen : GoFields → Nat
  | .nil => 0
  | .fcons _ _ _ _ rest => 1 + rest.flen

/-- Number of values in a value list. -/
def GoVals.vlen : GoVals → Nat
  | .nil => 0
  | .vcons _ rest => 1 + rest.vlen

/-- Value at an index, with a default (models reflect Value.Field). -/
def GoVals.vgetD : GoVals → Nat → GoVal → GoVal
  | .nil, _, d => d
  | .vcons v _, 0, _ => v
  | .vcons _ rest, i + 1, d => rest.vgetD i d

/-- Replace the value at an index; out-of-range indices leave the list
unchanged. -/
def GoVals.vset : GoVals → Nat → GoVal → GoVals
  | .nil, _, _ => .nil
  | .vcons _ rest, 0, w => .vcons w rest
  | .vcons v rest, i + 1, w => .vcons v (rest.vset i w)

/-- Append two value lists. -/
def GoVals.vappend : GoVals → GoVals → GoVals
  | .nil, ws => ws
  | .vcons v rest, ws => .vcons v (rest.vappend ws)

/-- First `n` values of a value list. -/
def GoVals.vtake : GoVals → Nat → GoVals
  | _, 0 => .nil
  | .nil, _ => .nil
  | .vcons v rest, n + 1 => .vcons v (rest.vtake n)

/-- Find a field by declared name: index, tag, exported flag and type of
the first field with that name (models FieldByName; the embedding has no
anonymous/embedded fields, so the breadth-first embedded search of
reflect degenerates to this direct lookup). -/
def findFieldIdx : GoFields → String → Option (Nat × String × Bool × GoType)
  | .nil, _ => none
  | .fcons n tg ex ty rest, p =>
    if n == p then some (0, tg, ex, ty)
    else (findFieldIdx rest p).map (fun r => (r.1 + 1, r.2))

/-- List of `n` copies of a value. -/
def replicateVals : Nat → GoVal → GoVals
  | 0, _ => .nil
  | n + 1, v => .vcons v (replicateVals n v)

mutual

/-- Zero value of a type (reflect.New(...).Elem()): empty scalars, nil
slices, zero-filled arrays and structs of zero fields. -/
def zeroVal : GoType → GoVal
  | .scalar _ => .scalar ""
  | .strct fs => .strct (zeroFields fs)
  | .slice _ => .slice true 0 .nil
  | .array n e => .array (replicateVals n (zeroVal e))

def zeroFields : GoFields → GoVals
  | .nil => .nil
  | .fcons _ _ _ ty rest => .vcons (zeroVal ty) (zeroFields rest)

end

/-- Zero-filled element list of an array type, as allocated by
reflect.New on an array. -/
def zeroList (n : Nat) (e : GoType) : GoVals :=
  replicateVals n (zeroVal e)

mutual

/-- A value inhabits a type: structs match field-for-field, slice elements
and array elements match the element type, a nil slice is empty with zero
capacity, a non-nil slice has capacity at least its length, and an array
has exactly its declared length. -/
def conforms : GoType → GoVal → Bool
  | .scalar _, .scalar _ => true
  | .strct fs, .strct vs => conformsFields fs vs
  | .slice et, .slice isNil c es =>
    (if isNil then c == 0 && es.vlen == 0 else es.vlen ≤ c) && conformsElems et es
  | .array n et, .array es => es.vlen == n && conformsElems et es
  | _, _ => false

def conformsFields : GoFields → GoVals → Bool
  | .nil, .nil => true
  | .fcons _ _ _ ty fs, .vcons v vs => conforms ty v && conformsFields fs vs
  | _, _ => false

def conformsElems : GoType → GoVals → Bool
  | _, .nil => true
  | et, .vcons v vs => conforms et v && conformsElems et vs

end

mutual

/-- Models reflect.DeepEqual on the embedding: structural equality that
distinguishes nil from empty slices but ignores slice capacity. -/
def deepEq : GoVal → GoVal → Bool
  | .scalar a, .scalar b => a == b
  | .strct as, .strct bs => deepEqList as bs
  | .slice n1 _ es1, .slice n2 _ es2 => n1 == n2 && deepEqList es1 es2
  | .array es1, .array es2 => deepEqList es1 es2
  | _, _ => false

def deepEqList : GoVals → GoVals → Bool
  | .nil, .nil => true
  | .vcons a as, .vcons b bs => deepEq a b && deepEqList as bs
  | _, _ => false

end

mutual

/-- No nil slice occurs anywhere inside the value. -/
def noNilSlice : GoVal → Bool
  | .scalar _ => true
  | .strct vs => noNilSliceList vs
  | .slice isNil _ es => !isNil && noNilSliceList es
  | .array es => noNilSliceList es

def noNilSliceList : GoVals → Bool
  | .nil => true
  | .vcons v vs => noNilSlice v && noNilSliceList vs

end

mutual

/-- Every field reachable through structs, slices and arrays is exported. -/
def allExported : GoType → Bool
  | .scalar _ => true
  | .strct fs => allExportedFields fs
  | .slice et => allExported et
  | .array _ et => allExported et

def allExportedFields : GoFields → Bool
  | .nil => true
  | .fcons _ _ ex ty rest => ex && allExported ty && allExportedFields rest

end

/-- Declared identifiers of a field list, in order. -/
def fieldNames : GoFields → List String
  | .nil => []
  | .fcons n _ _ _ rest => n :: fieldNames rest

/-- No string occurs twice in the list. -/
def nodupNames : List String → Bool
  | [] => true
  | n :: ns => !(ns.contains n) && nodupNames ns

mutual

/-- Field identifiers are duplicate-free at every struct level reachable
through structs, slices and arrays (an invariant of every legal Go type:
a struct cannot declare the same identifier twice). -/
def wfNames : GoType → Bool
  | .scalar _ => true
  | .strct fs => nodupNames (fieldNames fs) && wfNamesFields fs
  | .slice et => wfNames et
  | .array _ et => wfNames et

def wfNamesFields : GoFields → Bool
  | .nil => true
  | .fcons _ _ _ ty rest => wfNames ty && wfNamesFields rest

end

/-! ### Field enumeration

Transcribes getFields (reflection_utils.go lines 14-79).  An entry is the
fieldsData record of the source: root-to-leaf path, value, and tag.  The
embedding models the call through a pointer (as every call site does), so
reflect CanAddr holds for every field and the CanInterface/CanAddr skip
reduces to the exported flag. -/

abbrev FieldsData := List String × GoVal × String

/-- Name used for the non-struct fallback entry of getFields, which
returns the Name of the type of the value. -/
def typeNameOf : GoType → String
  | .scalar k => k
  | _ => ""

mutual

def getFields (returnStructs : Bool) : GoType → GoVal → List FieldsData
  | .strct fs, .strct vs => getFieldsLoop returnStructs fs vs
  | rt, v => [([typeNameOf rt], v, "")]

def getFieldsLoop (returnStructs : Bool) : GoFields → GoVals → List FieldsData
  | .nil, _ => []
  | _, .nil => []
  | .fcons n tg ex ty fs, .vcons v vs =>
    (if ex then
      match ty with
      | .strct sfs =>
        (if returnStructs then [([n], v, tg)] else []) ++
        (getFields returnStructs (.strct sfs) v).map (fun e => (n :: e.1, e.2.1, e.2.2))
      | _ => [([n], v, tg)]
     else []) ++ getFieldsLoop returnStructs fs vs

end

/-! ### Value transplanting

Transcribes setStruct, setArray and setField (part_001 lines 18-112).
The target reflect.Value is used by the source only through its type, so
the Lean functions take the target type; panics of the reflect runtime
(setting through an invalid value, walking into a non-struct) are modelled
by `Option` in setField and by returning a freshly allocated zero value in
the unreachable arms of the copy helpers. -/

/-- Overwrite the leading values of the first list with the second, as the
index loop of setArray does over a zero-allocated array; source elements
beyond the length of the target (a reflect panic in Go) are dropped. -/
def overwriteSeq : GoVals → GoVals → GoVals
  | zs, .nil => zs
  | .nil, .vcons _ _ => .nil
  | .vcons _ zs, .vcons e es => .vcons e (overwriteSeq zs es)

mutual

/-- Transcribes setStruct (part_001 lines 18-39): allocate a zero value of
the target struct type, then copy the fields of the source value by index,
dispatching on the kind of the target field. -/
def setStruct : GoType → GoVal → GoVal
  | .strct tfs, .strct vfs => .strct (copyFields tfs vfs)
  | tt, _ => zeroVal tt

/-- The field-copy loop shared by setStruct and the struct-element branch
of setArray: iterate over the source fields (value.NumField()), dispatch
on the kind of the corresponding target field; target fields beyond the
arity of the source keep their zero value. -/
def copyFields : GoFields → GoVals → GoVals
  | tfs, .nil => zeroFields tfs
  | .nil, .vcons _ _ => .nil
  | .fcons _ _ _ ty tfs, .vcons v vs =>
    .vcons (match ty with
            | .slice et => setArray (.slice et) v
            | .array n et => setArray (.array n et) v
            | .strct sfs => setStruct (.strct sfs) v
            | .scalar _ => v)
      (copyFields tfs vs)

/-- Transcribes setArray (part_001 lines 41-82): a slice target allocates
reflect.MakeSlice with the length and capacity of the source (hence never
nil), an array target allocates a zero array of its declared length; each
element is copied, struct elements through the field-copy loop. -/
def setArray : GoType → GoVal → GoVal
  | .slice et, .slice _ c es => .slice false c (copyElems et es)
  | .slice et, .array es => .slice false es.vlen (copyElems et es)
  | .array n et, .slice _ _ es => .array (overwriteSeq (zeroList n et) (copyElems et es))
  | .array n et, .array es => .array (overwriteSeq (zeroList n et) (copyElems et es))
  | _, v => v

/-- The element loop of setArray: a struct element is copied field-by-field
into a zero element of the target element type, anything else is copied
directly (note: directly even when it is itself a slice or array). -/
def copyElems : GoType → GoVals → GoVals
  | _, .nil => .nil
  | et, .vcons (.strct efs) es =>
    .vcons (match et with
            | .strct tfs => .strct (copyFields tfs efs)
            | _ => zeroVal et)
      (copyElems et es)
  | et, .vcons e es => .vcons e (copyElems et es)

end

/-- Transcribes setField (part_001 lines 84-112): walk the path by
FieldByName through the target, and at the leaf either assign directly
or, for slice/array leaves, rebuild through setArray.  The result pairs
the updated target with the number of emitted diagnostics (a missing leaf
logs both the not-valid and the not-addressable warning, because both
checks fail on the zero reflect.Value); `none` models the reflect panic
of calling FieldByName on an invalid or non-struct intermediate value. -/
def setField (rt : GoType) (r : GoVal) : List String → GoVal → Option (GoVal × Nat)
  | [], _ => some (r, 0)
  | [part], value =>
    match rt, r with
    | .strct fs, .strct vs =>
      (match findFieldIdx fs part with
       | some (i, _, _, fty) =>
         match fty with
         | .slice et => some (.strct (vs.vset i (setArray (.slice et) value)), 0)
         | .array n et => some (.strct (vs.vset i (setArray (.array n et) value)), 0)
         | _ => some (.strct (vs.vset i value), 0)
       | none => some (.strct vs, 2))
    | _, _ => none
  | part :: rest, value =>
    match rt, r with
    | .strct fs, .strct vs =>
      (match findFieldIdx fs part with
       | some (i, _, _, fty) =>
         (setField fty (vs.vgetD i (.scalar "")) rest value).map
           (fun p => (.strct (vs.vset i p.1), p.2))
       | none => none)
    | _, _ => none

/-- The transplant loop of configParser.apply (part_001 lines 245-251):
set every enumerated field of the decoded shadow value on the target;
`none` models a reflect panic aborting the call. -/
def applyFields (rt : GoType) : GoVal → List FieldsData → Option GoVal
  | target, [] => some target
  | target, e :: es =>
    match setField rt target e.1 e.2.1 with
    | some p => applyFields rt p.1 es
    | none => none

/-- The three config formats plus automatic detection (types.go). -/
inductive ConfigType : Type where
  | yaml
  | json
  | toml
  | auto
  deriving DecidableEq

/-- Modelled from the spec: the Multi-Format Decode Facade (the JSON, YAML
and TOML decoders invoked by configParser.apply) is an external
collaborator, treated per the spec as an opaque decode-bytes-into-a-value
service.  Decoding the canonical F-serialization of a conforming record
value into a fresh shadow instance yields a shadow value structurally
identical to the original: in all three formats a nil collection
serializes to null or an omitted key and decodes back to the nil zero
value, a non-nil collection round-trips element-wise.  Because the
embedding erases the distinction between a type and its synthesized
shadow clone, this composition is the structural identity on values. -/
def decodeCanonical (fmt : ConfigType) (v : GoVal) : GoVal :=
  match fmt with
  | _ => v

/-- The binding pipeline of configParser.apply after the decode step:
enumerate the leaf fields of the decoded shadow instance with getFields
and transplant each into a fresh zero-valued target of the original type
with setField. -/
def transplantPipeline (fmt : ConfigType) (rt : GoType) (v : GoVal) : Option GoVal :=
  applyFields rt (zeroVal rt) (getFields false rt (decodeCanonical fmt v))

/-! ### Shadow-type synthesis

Transcribes createModifiedType and createModifiedArray (part_001 lines
276-393) together with cloneWithNewTags (lines 256-274).  The Go panics
(the duplicate confy name, and the reflect.StructOf panic on an
unexported field) become `Except.error`; everything else is `Except.ok`. -/

/-- The renaming tag key (types.go). -/
def confyTag : String := "confy"

/-- The decode formats whose tags the engine rewrites (newConfigLoader,
part_001 lines 188-197). -/
def supportedTags : List String := ["json", "yaml", "toml"]

/-- Override name of a field: the first semicolon-delimited segment of the
confy tag value, when the tag is present (part_001 lines 334-340). -/
def confyOverrideName (tag : String) : Option String :=
  (tagLookup tag confyTag).map (fun instr => (goSplit instr ';').headD "")

/-- Serialize one tag pair back to `key:"value"` characters. -/
def pairChars (p : String × String) : List Char :=
  p.1.toList ++ ':' :: '"' :: p.2.toList ++ ['"']

/-- Serialize tag pairs, space-separated (strings.Join of tagsToSet). -/
def rebuildChars : List (String × String) → List Char
  | [] => []
  | [p] => pairChars p
  | p :: ps => pairChars p ++ ' ' :: rebuildChars ps

/-- Tag pairs rebuilt into a struct-tag string. -/
def rebuildTags (ps : List (String × String)) : String :=
  String.mk (rebuildChars ps)

/-- The existing tags preserved verbatim by the field loop of
createModifiedType (part_001 lines 363-377): every scanned tag name paired
with its looked-up value. -/
def preservedPairs (tag : String) : List (String × String) :=
  (getAllTagNames tag).filterMap (fun n => (tagLookup tag n).map (fun v => (n, v)))

/-- The confyTagNames map of createModifiedType (part_001 lines 352-361):
a non-empty override name for every supported format, else the yaml
fallback equal to the declared field identifier.  The source iterates a
Go map here; the embedding fixes the supportedTags order, which is
irrelevant to tag lookup because these keys are distinct. -/
def confyTagNames (fieldName tag : String) : List (String × String) :=
  if (confyOverrideName tag).getD "" ≠ "" then
    supportedTags.map (fun t => (t, (confyOverrideName tag).getD ""))
  else [("yaml", fieldName)]

/-- The injected pairs (part_001 lines 379-385): confyTagNames entries
whose key is not among the already-set preserved tags. -/
def injectedPairs (fieldName tag : String) : List (String × String) :=
  (confyTagNames fieldName tag).filter
    (fun p => !((preservedPairs tag).map (fun q => q.1)).contains p.1)

/-- The per-field tag rewrite of createModifiedType (part_001 lines
331-387): preserve every existing tag verbatim, then inject the override
name for each supported format not already set, or, with no override
name, inject a yaml fallback equal to the declared field identifier. -/
def rewriteTag (fieldName tag : String) : String :=
  rebuildTags (preservedPairs tag ++ injectedPairs fieldName tag)

/-- Every field of the list is exported; reflect.StructOf panics when a
field carries a nonempty PkgPath, which the field loop copies verbatim
from the original field. -/
def fieldsExportedShallow : GoFields → Bool
  | .nil => true
  | .fcons _ _ ex _ rest => ex && fieldsExportedShallow rest

mutual

/-- Transcribes createModifiedType (part_001 lines 306-393).  For each
field in order: first rewrite the field type (recursing into structs and
collections), then, when a confy tag is present, register its first
semicolon segment in the per-level duplicate set and fail on a repeat;
finally rebuild the tag.  The reflect.StructOf call at the end fails on
unexported fields. -/
def createModifiedType : GoType → Except String GoType
  | .strct fs => do
    let fs2 ← modifyFields fs []
    if fieldsExportedShallow fs then pure (.strct fs2)
    else throw "reflect.StructOf: field is unexported"
  | _ => throw "reflect: NumField of non-struct type"

/-- The field loop of createModifiedType; `seen` is the
confyTagsOnThisLevel set, local to one nesting level. -/
def modifyFields : GoFields → List String → Except String GoFields
  | .nil, _ => pure .nil
  | .fcons name tg ex ty rest, seen => do
    let ty2 ← (match ty with
      | .strct sfs => createModifiedType (.strct sfs)
      | .slice et => createModifiedArray (.slice et)
      | .array n et => createModifiedArray (.array n et)
      | .scalar k => pure (.scalar k))
    match confyOverrideName tg with
    | some m =>
      if seen.contains m then
        throw ("duplicate confy tag " ++ m ++ " found on " ++ name)
      else do
        let rest2 ← modifyFields rest (m :: seen)
        pure (.fcons name (rewriteTag name tg) ex ty2 rest2)
    | none => do
      let rest2 ← modifyFields rest seen
      pure (.fcons name (rewriteTag name tg) ex ty2 rest2)

/-- Transcribes createModifiedArray (part_001 lines 276-304): rewrite the
element type of an array or slice, recursing through nested collections
into struct elements; other types are returned unchanged. -/
def createModifiedArray : GoType → Except String GoType
  | .array n et => do
    let et2 ← (match et with
      | .strct sfs => createModifiedType (.strct sfs)
      | .slice e2 => createModifiedArray (.slice e2)
      | .array m e2 => createModifiedArray (.array m e2)
      | .scalar k => pure (.scalar k))
    pure (.array n et2)
  | .slice et => do
    let et2 ← (match et with
      | .strct sfs => createModifiedType (.strct sfs)
      | .slice e2 => createModifiedArray (.slice e2)
      | .array m e2 => createModifiedArray (.array m e2)
      | .scalar k => pure (.scalar k))
    pure (.slice et2)
  | t => pure t

end

/-- Transcribes cloneWithNewTags (part_001 lines 256-274): reject
non-struct inputs, synthesize the shadow type, and allocate a fresh zero
instance of it. -/
def cloneWithNewTags : GoType → Except String (GoType × GoVal)
  | .strct fs => do
    let nt ← createModifiedType (.strct fs)
    pure (nt, zeroVal nt)
  | _ => throw "input config was not struct"

/-! ### Name resolution -/

/-- Fields of the root struct type (the `t` of getField, which is always
the Elem type of the pointer passed in; a non-struct root would make
reflect panic and never yields a field). -/
def rootFields : GoType → GoFields
  | .strct fs => fs
  | _ => .nil

/-- Transcribes getField (reflection_utils.go lines 81-98).  The walk
advances the value `r` through the path, but the type `t` used for the
StructField lookup is never advanced by the loop: the tag of the result
comes from looking the FINAL path segment up on the ROOT type.  The outer
`Option` is `none` when the walk panics (FieldByName on an invalid or
non-struct value); the inner `Option` is `none` when the loop falls
through and the source returns the pair of zero values, whose StructField
carries an empty tag. -/
def getField (root : GoType) : GoType → GoVal → List String → Option (Option (GoVal × String))
  | _, _, [] => some none
  | .strct fs, .strct vs, [part] =>
    (match findFieldIdx fs part with
     | some (i, _, _, _) =>
       some (some (vs.vgetD i (.scalar ""),
         match findFieldIdx (rootFields root) part with
         | some (_, tg, _, _) => tg
         | none => ""))
     | none => some none)
  | .strct fs, .strct vs, part :: rest =>
    (match findFieldIdx fs part with
     | some (i, _, _, fty) => getField root fty (vs.vgetD i (.scalar "")) rest
     | none => none)
  | _, _, _ => none

/-- The loop body of resolvePath, carried over an explicit prefix
accumulator: the iteration for segment `i` calls getField on the prefix
of length `i + 1` and takes the whole confy tag value when present, else
the declared segment. -/
def resolvePathAux (rt : GoType) (v : GoVal) : List String → List String → Option (List String)
  | _, [] => some []
  | pre, seg :: rest => do
    let found ← getField rt rt v (pre ++ [seg])
    let cur := match found with
      | some (_, tg) =>
        (match tagLookup tg confyTag with
         | some value => value
         | none => seg)
      | none => seg
    let others ← resolvePathAux rt v (pre ++ [seg]) rest
    pure (cur :: others)

/-- Transcribes resolvePath (reflection_utils.go lines 100-113). -/
def resolvePath (rt : GoType) (v : GoVal) (path : List String) : Option (List String) :=
  resolvePathAux rt v [] path

/-! ### Sensitive-value masking -/

/-- Transcribes maskSensitive (reflection_utils.go lines 127-145).  Note
that the source shadows its `value` parameter with the looked-up confy
tag value, so the final non-empty test inspects the TAG value rather than
the raw value being printed. -/
def maskSensitive (value : String) (tag : String) : String :=
  let printedValue := value
  let tagValue := (tagLookup tag confyTag).getD ""
  let isSensitive :=
    match tagLookup tag confyTag with
    | some tv =>
      let parts := goSplit tv ';'
      if 1 < parts.length then goTrimSpace (parts.getD 1 "") == "sensitive"
      else false
    | none => false
  if isSensitive && !(tagValue == "") then "**********" else printedValue

/-! ### The Config dispatch loop

Transcribes the source-dispatch of Config (part_003 lines 122-202) over
abstract loader outcomes: each configured source (cli, env, file) reports
whether it set anything and an optional error, classified as the fatal
class (errors.Is errFatal), the help class (flag.ErrHelp) or any other
error.  Option-function errors and the loader loop are transcribed; the
logging and os.Args plumbing are external. -/

/-- Error classes distinguished by the dispatch of Config. -/
inductive LoaderErrKind : Type where
  | fatal
  | help
  | other
  deriving DecidableEq

/-- Modelled from the spec: the confy file loader marks decode failures of
a source configured as required (WithConfigRequired, part_003 lines
463-470 sets the flag; the loader code consuming it is not under src/)
by wrapping them in errFatal, the error matched at part_003 line 177.
A required-source decode error therefore reaches Config as the fatal
class `LoaderErrKind.fatal`. -/
def requiredDecodeErrKind : LoaderErrKind := .fatal

/-- Outcome of one loader apply call: the somethingWasSet flag and the
returned error, if any. -/
structure LoaderOutcome : Type where
  didSet : Bool
  err : Option LoaderErrKind
  deriving DecidableEq

/-- Reasons Config returns a terminal error. -/
inductive TermReason : Type where
  | optionErr
  | loaderErr (k : LoaderErrKind)
  | nothingSet
  deriving DecidableEq

/-- The source loop of Config (part_003 lines 167-201): a fatal loader
error returns immediately; any other loader error is accumulated as a
warning only when more than one source is configured and the error is not
the help error, and otherwise returns immediately; at the end, when no
source set anything, a terminal nothing-was-set error is returned with
the warnings.  Terminal returns inside the loop discard the accumulated
warnings, exactly as the source returns nil warnings there. -/
def configGo : List LoaderOutcome → Nat → Bool → List LoaderErrKind →
    List LoaderErrKind × Option TermReason
  | [], _, anySet, ws =>
    if anySet then (ws, none) else (ws, some .nothingSet)
  | l :: rest, orderLen, anySet, ws =>
    match l.err with
    | some e =>
      if e = .fatal then ([], some (.loaderErr e))
      else if 1 < orderLen ∧ e ≠ .help then
        configGo rest orderLen (anySet || l.didSet) (ws ++ [e])
      else ([], some (.loaderErr e))
    | none => configGo rest orderLen (anySet || l.didSet) ws

/-- Config over an already-built source order: option-function errors are
joined and returned terminally before any loading (part_003 lines
137-152); then the loader loop runs.  The returned pair is the warnings
list and the terminal error, the populated result being threaded through
the loaders themselves. -/
def configRun (optErr : Bool) (loaders : List LoaderOutcome) :
    List LoaderErrKind × Option TermReason :=
  if optErr then ([], some .optionErr)
  else configGo loaders loaders.length false []

/-! ### Specification-side definitions

These follow the wording of the specification and of the claims; the
theorems below compare them with the functions transcribed from the
source. -/

/-- Condition of the masking claim: the renaming annotation has a second
semicolon-delimited segment that, after trimming whitespace, equals
the reserved keyword sensitive. -/
def sensitiveCond (tag : String) : Bool :=
  match tagLookup tag confyTag with
  | some tv =>
    let parts := goSplit tv ';'
    decide (1 < parts.length) && (goTrimSpace (parts.getD 1 "") == "sensitive")
  | none => false

/-- Override names claimed at one nesting level, in declaration order:
one entry per field carrying the renaming annotation (its first
semicolon-delimited segment, possibly empty). -/
def levelOverrideNames : GoFields → List String
  | .nil => []
  | .fcons _ tg _ _ rest =>
    (match confyOverrideName tg with
     | some m => [m]
     | none => []) ++ levelOverrideNames rest

/-- A name of the list repeats, or clashes with the already-seen set;
`hasClash [] ns` decides whether `ns` contains a duplicate. -/
def hasClash : List String → List String → Bool
  | _, [] => false
  | seen, n :: ns => seen.contains n || hasClash (n :: seen) ns

mutual

/-- Wording of the duplicate-name claim: at every nesting level reachable
through structs and through the element types of slices and arrays, no
two fields carrying the renaming annotation resolve to the same override
name. -/
def dupFreeSpec : GoType → Bool
  | .scalar _ => true
  | .strct fs => nodupNames (levelOverrideNames fs) && dupFreeFields fs
  | .slice et => dupFreeSpec et
  | .array _ et => dupFreeSpec et

def dupFreeFields : GoFields → Bool
  | .nil => true
  | .fcons _ _ _ ty rest => dupFreeSpec ty && dupFreeFields rest

end

mutual

/-- Wording of the walker claim: the root-to-leaf paths of the exported
non-struct fields, in declaration order, depth first. -/
def leafPathsSpec : GoType → List (List String)
  | .strct fs => leafPathsFields fs
  | _ => []

def leafPathsFields : GoFields → List (List String)
  | .nil => []
  | .fcons n _ ex ty rest =>
    (if ex then
      match ty with
      | .strct sfs => (leafPathsSpec (.strct sfs)).map (fun p => n :: p)
      | _ => [[n]]
     else []) ++ leafPathsFields rest

end

/-- Per-element transplant of the collection claim: a record element goes
through the structural copy setStruct, anything else is copied directly. -/
def elemTransplant (et : GoType) (e : GoVal) : GoVal :=
  match e with
  | .strct _ => setStruct et e
  | _ => e

/-- Map the per-element transplant over an element list. -/
def vmapElem (et : GoType) : GoVals → GoVals
  | .nil => .nil
  | .vcons e es => .vcons (elemTransplant et e) (vmapElem et es)

/-- The path walks through existing struct fields of the target but its
final segment names no field at the final level: the scenario of the
skip-one-field claim. -/
def leafMissing : GoType → GoVal → List String → Bool
  | .strct fs, .strct _, [part] => (findFieldIdx fs part).isNone
  | .strct fs, .strct vs, part :: rest =>
    (match findFieldIdx fs part with
     | some (i, _, _, fty) => leafMissing fty (vs.vgetD i (.scalar "")) rest
     | none => false)
  | _, _, _ => false

/-- A loader outcome that the Config loop downgrades to a warning: no
error at all, or an error that is neither the fatal class nor the help
class while more than one source is configured. -/
def warnable (n : Nat) (l : LoaderOutcome) : Bool :=
  match l.err with
  | none => true
  | some e => !(e = .fatal : Bool) && !(e = .help : Bool) && decide (1 < n)

/-- Walk a value and its type along a path of field names; `none` when a
segment is missing or a non-struct value is entered. -/
def walkVal : GoType → GoVal → List String → Option (GoType × GoVal)
  | ct, cv, [] => some (ct, cv)
  | .strct fs, .strct vs, p :: rest =>
    (match findFieldIdx fs p with
     | some (i, _, _, fty) => walkVal fty (vs.vgetD i (.scalar "")) rest
     | none => none)
  | _, _, _ => none

/-- A nonempty path every segment of which resolves, the intermediate
segments through struct values. -/
def pathValid (rt : GoType) (v : GoVal) (path : List String) : Bool :=
  !path.isEmpty && (walkVal rt v path).isSome

/-- Resolution of one segment as resolvePath actually performs it: look
the segment name up among the fields of the ROOT type and take the whole
confy tag value when the annotation is present, else the declared
segment. -/
def rootResolve (rt : GoType) (seg : String) : String :=
  match findFieldIdx (rootFields rt) seg with
  | some (_, tg, _, _) =>
    (match tagLookup tg confyTag with
     | some value => value
     | none => seg)
  | none => seg

/-! ### Basic lemmas about value lists -/

theorem vset_vgetD_self : ∀ (vs : GoVals) (i : Nat) (d : GoVal),
    vs.vset i (vs.vgetD i d) = vs
  | .nil, _, _ => rfl
  | .vcons _ _, 0, _ => rfl
  | .vcons v rest, i + 1, d => by
    simp [GoVals.vset, GoVals.vgetD, vset_vgetD_self rest i d]

theorem vmapElem_vlen : ∀ (et : GoType) (es : GoVals),
    (vmapElem et es).vlen = es.vlen
  | _, .nil => rfl
  | et, .vcons e es => by simp [vmapElem, GoVals.vlen, vmapElem_vlen et es]

theorem overwriteSeq_full : ∀ (zs es : GoVals), zs.vlen = es.vlen →
    overwriteSeq zs es = es
  | .nil, .nil, _ => rfl
  | .vcons _ _, .nil, h => by simp [GoVals.vlen] at h
  | .nil, .vcons _ _, h => by simp [GoVals.vlen] at h; omega
  | .vcons z zs, .vcons e es, h => by
    simp [GoVals.vlen] at h
    simp [overwriteSeq, overwriteSeq_full zs es h]

theorem replicateVals_vlen : ∀ (n : Nat) (v : GoVal), (replicateVals n v).vlen = n
  | 0, _ => rfl
  | n + 1, v => by simp [replicateVals, GoVals.vlen, replicateVals_vlen n v, Nat.add_comm]

theorem zeroList_vlen (n : Nat) (e : GoType) : (zeroList n e).vlen = n := by
  simp [zeroList, replicateVals_vlen]

theorem copyElems_vlen : ∀ (et : GoType) (es : GoVals),
    (copyElems et es).vlen = es.vlen
  | _, .nil => rfl
  | et, .vcons (.strct efs) es => by
    simp [copyElems, GoVals.vlen, copyElems_vlen et es]
  | et, .vcons (.scalar s) es => by
    simp [copyElems, GoVals.vlen, copyElems_vlen et es]
  | et, .vcons (.slice b c es2) es => by
    simp [copyElems, GoVals.vlen, copyElems_vlen et es]
  | et, .vcons (.array es2) es => by
    simp [copyElems, GoVals.vlen, copyElems_vlen et es]

theorem copyElems_eq_vmapElem : ∀ (et : GoType) (es : GoVals),
    copyElems et es = vmapElem et es
  | _, .nil => rfl
  | et, .vcons (.strct efs) es => by
    cases et <;>
      simp [copyElems, vmapElem, elemTransplant, setStruct, copyElems_eq_vmapElem _ es]
  | et, .vcons (.scalar s) es => by
    simp [copyElems, vmapElem, elemTransplant, copyElems_eq_vmapElem et es]
  | et, .vcons (.slice b c es2) es => by
    simp [copyElems, vmapElem, elemTransplant, copyElems_eq_vmapElem et es]
  | et, .vcons (.array es2) es => by
    simp [copyElems, vmapElem, elemTransplant, copyElems_eq_vmapElem et es]

/-! ### C9: sensitive-value masking -/

/-- C9: maskSensitive returns the fixed mask string exactly when the
second semicolon-delimited segment of the renaming annotation trims to
the keyword sensitive, and returns the raw value unchanged in every other
case.  The extra non-empty test the source performs on its shadowed value
variable is redundant: a tag value with a second semicolon segment is
never the empty string.  maskSensitive is a pure function consumed only
by the logging call sites; none of the binding functions of this file
depend on it. -/
theorem maskSensitive_masks_iff_sensitive (value tag : String) :
    maskSensitive value tag =
      if sensitiveCond tag then "**********" else value := by
  unfold maskSensitive sensitiveCond
  cases h : tagLookup tag confyTag with
  | none => simp
  | some tv =>
    by_cases htv : tv = ""
    · subst htv
      have hsplit : goSplit "" ';' = [""] := by decide
      simp [hsplit]
    · by_cases hlen : 1 < (goSplit tv ';').length
      · simp [hlen, htv]
      · simp [hlen]

/-! ### C7: an unresolvable leaf is skipped -/

theorem setField_leafMissing (value : GoVal) : ∀ (path : List String)
    (rt : GoType) (r : GoVal), leafMissing rt r path = true →
    setField rt r path value = some (r, 2) := by
  intro path
  induction path with
  | nil => intro rt r h; cases rt <;> cases r <;> simp [leafMissing] at h
  | cons part rest ih =>
    intro rt r h
    cases rest with
    | nil =>
      cases rt <;> cases r <;> simp [leafMissing] at h
      case strct.strct fs vs =>
        cases hf : findFieldIdx fs part with
        | none => simp [setField, hf]
        | some x => rw [hf] at h; simp at h
    | cons q rest2 =>
      cases rt <;> cases r <;> simp [leafMissing] at h
      case strct.strct fs vs =>
        cases hf : findFieldIdx fs part with
        | none => rw [hf] at h; simp at h
        | some x =>
          rw [hf] at h
          simp at h
          have := ih x.2.2.2 (vs.vgetD x.1 (.scalar "")) h
          simp [setField, hf, this, vset_vgetD_self]

/-- C7: when the path walks through existing struct fields but its final
segment names no field of the final level, setField emits its two
diagnostics, returns normally with the target bit-for-bit unchanged, and
the transplant loop of apply simply continues with the remaining fields:
one unresolvable field never aborts the bind and modifies nothing. -/
theorem setField_skips_missing_leaf (rt : GoType) (r : GoVal)
    (path : List String) (value : GoVal) (tg : String)
    (rest2 : List FieldsData) (h : leafMissing rt r path = true) :
    setField rt r path value = some (r, 2) ∧
    applyFields rt r ((path, value, tg) :: rest2) = applyFields rt r rest2 := by
  refine ⟨setField_leafMissing value path rt r h, ?_⟩
  simp [applyFields, setField_leafMissing value path rt r h]

/-- Witness for the skip claim: a one-field struct addressed by a path
whose leaf names a missing field. -/
theorem setField_skips_missing_leaf_witness :
    leafMissing (.strct (.fcons "A" "" true (.scalar "string") .nil))
        (.strct (.vcons (.scalar "x") .nil)) ["B"] = true ∧
      setField (.strct (.fcons "A" "" true (.scalar "string") .nil))
        (.strct (.vcons (.scalar "x") .nil)) ["B"] (.scalar "y") =
        some (.strct (.vcons (.scalar "x") .nil), 2) :=
  ⟨by decide,
    (setField_skips_missing_leaf (.strct (.fcons "A" "" true (.scalar "string") .nil))
      (.strct (.vcons (.scalar "x") .nil)) ["B"] (.scalar "y") "" [] (by decide)).1⟩

/-! ### C6: element-by-element collection transplant -/

/-- C6: setArray copies collections element by element in order: a slice
target is rebuilt non-nil with the length and capacity of the source,
each record element going through the structural copy setStruct and every
other element copied directly; a zero-length source yields the zero-length
non-nil slice; a conforming fixed-size array source fills an array of the
declared length completely, preserving order and length. -/
theorem setArray_elementwise (et : GoType) (b : Bool) (c : Nat)
    (es : GoVals) (n : Nat) :
    setArray (.slice et) (.slice b c es) = .slice false c (vmapElem et es) ∧
    (vmapElem et es).vlen = es.vlen ∧
    setArray (.slice et) (.slice b c .nil) = .slice false c .nil ∧
    (conforms (.array n et) (.array es) = true →
      setArray (.array n et) (.array es) = .array (vmapElem et es)) := by
  refine ⟨?_, vmapElem_vlen et es, ?_, ?_⟩
  · simp [setArray, copyElems_eq_vmapElem]
  · simp [setArray, copyElems, vmapElem]
  · intro h
    simp [conforms, Bool.and_eq_true] at h
    have hlen : es.vlen = n := h.1
    have hz : (zeroList n et).vlen = (vmapElem et es).vlen := by
      rw [zeroList_vlen, vmapElem_vlen, hlen]
    simp [setArray, copyElems_eq_vmapElem, overwriteSeq_full _ _ hz]

/-- Witness for the collection claim: a two-element slice of records and a
conforming two-element array. -/
theorem setArray_elementwise_witness :
    conforms (.array 2 (.scalar "int"))
        (.array (.vcons (.scalar "1") (.vcons (.scalar "2") .nil))) = true ∧
      setArray (.array 2 (.scalar "int"))
        (.array (.vcons (.scalar "1") (.vcons (.scalar "2") .nil))) =
        .array (vmapElem (.scalar "int") (.vcons (.scalar "1") (.vcons (.scalar "2") .nil))) :=
  ⟨by decide,
    (setArray_elementwise (.scalar "int") false 2
      (.vcons (.scalar "1") (.vcons (.scalar "2") .nil)) 2).2.2.2 (by decide)⟩

/-! ### C2 and C10: duplicate override names -/

/-- The type-rewrite step applied to one field by createModifiedType
(part_001 lines 325-329), factored for the proofs below. -/
def modifyTypeStep (ty : GoType) : Except String GoType :=
  match ty with
  | .strct sfs => createModifiedType (.strct sfs)
  | .slice et => createModifiedArray (.slice et)
  | .array n et => createModifiedArray (.array n et)
  | .scalar k => pure (.scalar k)

theorem modifyFields_cons (name tg : String) (ex : Bool) (ty : GoType)
    (rest : GoFields) (seen : List String) :
    modifyFields (.fcons name tg ex ty rest) seen =
      (modifyTypeStep ty).bind (fun ty2 =>
        match confyOverrideName tg with
        | some m =>
          if seen.contains m then
            Except.error ("duplicate confy tag " ++ m ++ " found on " ++ name)
          else (modifyFields rest (m :: seen)).bind (fun rest2 =>
            pure (.fcons name (rewriteTag name tg) ex ty2 rest2))
        | none => (modifyFields rest seen).bind (fun rest2 =>
            pure (.fcons name (rewriteTag name tg) ex ty2 rest2))) := by
  cases ty <;> rfl

theorem createModifiedArray_slice (et : GoType) :
    createModifiedArray (.slice et) =
      (modifyTypeStep et).bind (fun et2 => pure (.slice et2)) := by
  cases et <;> rfl

theorem createModifiedArray_array (n : Nat) (et : GoType) :
    createModifiedArray (.array n et) =
      (modifyTypeStep et).bind (fun et2 => pure (.array n et2)) := by
  cases et <;> rfl

theorem createModifiedType_strct (fs : GoFields) :
    createModifiedType (.strct fs) =
      (modifyFields fs []).bind (fun fs2 =>
        if fieldsExportedShallow fs then pure (.strct fs2)
        else Except.error "reflect.StructOf: field is unexported") := rfl

theorem except_isOk_bind_pure {α β : Type} (x : Except String α) (f : α → β) :
    ((x.bind (fun a => pure (f a))).isOk : Bool) = x.isOk := by
  cases x <;> rfl


theorem except_bind_ok {α β : Type} (a : α) (f : α → Except String β) :
    (Except.ok a : Except String α).bind f = f a := rfl

theorem except_bind_error {α β : Type} (e : String) (f : α → Except String β) :
    (Except.error e : Except String α).bind f = Except.error e := rfl

theorem except_isOk_error {α : Type} (e : String) :
    ((Except.error e : Except String α).isOk : Bool) = false := rfl

theorem except_isOk_ok {α : Type} (a : α) :
    ((Except.ok a : Except String α).isOk : Bool) = true := rfl

theorem allExportedFields_shallow : ∀ (fs : GoFields),
    allExportedFields fs = true → fieldsExportedShallow fs = true
  | .nil, _ => rfl
  | .fcons n tg ex ty rest, h => by
    simp [allExportedFields, Bool.and_eq_true] at h
    simp [fieldsExportedShallow, h.1.1, allExportedFields_shallow rest h.2]

theorem contains_false_iff (ns : List String) (n : String) :
    ns.contains n = false ↔ ¬ n ∈ ns := by
  constructor
  · intro h hm
    have : ns.contains n = true := List.elem_iff.2 hm
    rw [h] at this
    exact Bool.false_ne_true this
  · intro h
    cases hc : ns.contains n with
    | false => rfl
    | true => exact absurd (List.elem_iff.1 hc) h

theorem nodupNames_iff : ∀ (ns : List String), nodupNames ns = true ↔ ns.Nodup
  | [] => by simp [nodupNames]
  | n :: ns => by
    simp only [nodupNames, Bool.and_eq_true, Bool.not_eq_true', nodupNames_iff ns,
      List.nodup_cons, contains_false_iff]

theorem hasClash_true_iff : ∀ (seen ns : List String),
    hasClash seen ns = true ↔ (∃ x ∈ ns, x ∈ seen) ∨ ¬ ns.Nodup
  | _, [] => by simp [hasClash]
  | seen, n :: ns => by
    simp only [hasClash, Bool.or_eq_true, hasClash_true_iff (n :: seen) ns,
      List.mem_cons, List.nodup_cons]
    constructor
    · rintro (h | ⟨x, hx, (rfl | hxs)⟩ | h)
      · exact Or.inl ⟨n, Or.inl rfl, List.elem_iff.1 h⟩
      · exact Or.inr (fun hc => (hc.1 hx).elim)
      · exact Or.inl ⟨x, Or.inr hx, hxs⟩
      · exact Or.inr (fun hc => h hc.2)
    · rintro (⟨x, (rfl | hx), hxs⟩ | h)
      · exact Or.inl (List.elem_iff.2 hxs)
      · exact Or.inr (Or.inl ⟨x, hx, Or.inr hxs⟩)
      · by_cases hn : n ∈ ns
        · exact Or.inr (Or.inl ⟨n, hn, Or.inl rfl⟩)
        · exact Or.inr (Or.inr (fun hd => h ⟨hn, hd⟩))

theorem hasClash_nil (ns : List String) : hasClash [] ns = !nodupNames ns := by
  cases h : nodupNames ns with
  | true =>
    have hn : ns.Nodup := (nodupNames_iff ns).1 h
    have hfalse : ¬ hasClash [] ns = true := by
      rw [hasClash_true_iff]
      rintro (⟨x, _, hx⟩ | hd)
      · simp at hx
      · exact hd hn
    simp only [Bool.not_eq_true] at hfalse
    simp [hfalse]
  | false =>
    have hn : ¬ ns.Nodup := fun hc => by
      have := (nodupNames_iff ns).2 hc
      rw [h] at this
      exact Bool.false_ne_true this
    have : hasClash [] ns = true := (hasClash_true_iff [] ns).2 (Or.inr hn)
    simp [this]

mutual

theorem modifyTypeStep_isOk : ∀ (ty : GoType), allExported ty = true →
    ((modifyTypeStep ty).isOk : Bool) = dupFreeSpec ty
  | .scalar k, _ => rfl
  | .strct sfs, h => by
    have hexp : allExportedFields sfs = true := by simpa [allExported] using h
    have hms := modifyFields_isOk sfs [] hexp
    have hshallow := allExportedFields_shallow sfs hexp
    show ((createModifiedType (.strct sfs)).isOk : Bool) = _
    have hred : createModifiedType (.strct sfs) =
        (modifyFields sfs []).bind (fun fs2 => pure (.strct fs2)) := by
      rw [createModifiedType_strct]
      congr 1
      funext fs2
      rw [hshallow]
      simp
    rw [hred, except_isOk_bind_pure, hms, hasClash_nil]
    simp [dupFreeSpec, Bool.and_comm]
  | .slice et, h => by
    have hst := modifyTypeStep_isOk et (by simpa [allExported] using h)
    show ((createModifiedArray (.slice et)).isOk : Bool) = _
    rw [createModifiedArray_slice, except_isOk_bind_pure, hst]
    simp [dupFreeSpec]
  | .array n et, h => by
    have hst := modifyTypeStep_isOk et (by simpa [allExported] using h)
    show ((createModifiedArray (.array n et)).isOk : Bool) = _
    rw [createModifiedArray_array, except_isOk_bind_pure, hst]
    simp [dupFreeSpec]

theorem modifyFields_isOk : ∀ (fs : GoFields) (seen : List String),
    allExportedFields fs = true →
    ((modifyFields fs seen).isOk : Bool) =
      (dupFreeFields fs && !hasClash seen (levelOverrideNames fs))
  | .nil, _, _ => rfl
  | .fcons name tg ex ty rest, seen, h => by
    have hx1 : allExported ty = true := by
      simp [allExportedFields, Bool.and_eq_true] at h
      exact h.1.2
    have hx2 : allExportedFields rest = true := by
      simp [allExportedFields, Bool.and_eq_true] at h
      exact h.2
    have hstep := modifyTypeStep_isOk ty hx1
    rw [modifyFields_cons]
    cases hs : modifyTypeStep ty with
    | error e =>
      rw [hs] at hstep
      rw [except_bind_error, except_isOk_error]
      rw [except_isOk_error] at hstep
      simp [dupFreeFields, ← hstep]
    | ok ty2 =>
      rw [hs] at hstep
      rw [except_isOk_ok] at hstep
      have hdup : dupFreeSpec ty = true := hstep.symm
      rw [except_bind_ok]
      cases hc : confyOverrideName tg with
      | some m =>
        cases hm : seen.contains m with
        | true =>
          have hmem : m ∈ seen := List.elem_iff.1 hm
          simp [hc, hm, hmem, except_isOk_error, dupFreeFields,
            levelOverrideNames, hasClash, hdup]
        | false =>
          have hmem : ¬ m ∈ seen := (contains_false_iff seen m).1 hm
          have ih := modifyFields_isOk rest (m :: seen) hx2
          simp [hc, hm, hmem, except_isOk_bind_pure, ih, dupFreeFields,
            levelOverrideNames, hasClash, hdup]
      | none =>
        have ih := modifyFields_isOk rest seen hx2
        simp [hc, except_isOk_bind_pure, ih, dupFreeFields, levelOverrideNames,
          hasClash, hdup]

end

/-- C2: with every field exported (reflect.StructOf rejects unexported
fields), shadow-type construction succeeds exactly when no two fields at
any single nesting level carry renaming annotations resolving to the same
override name, whatever the declared types of the fields involved; equal
override names at different nesting levels never conflict, because the
duplicate set of createModifiedType is local to one level.  The check runs
inside cloneWithNewTags, which configParser.apply completes before
constructing any decoder. -/
theorem createModifiedType_dup_schema (fs : GoFields)
    (h : allExportedFields fs = true) :
    ((createModifiedType (.strct fs)).isOk : Bool) = dupFreeSpec (.strct fs) := by
  have hms := modifyTypeStep_isOk (.strct fs) (by simpa [allExported] using h)
  simpa [modifyTypeStep] using hms

/-- Witness for the duplicate-name claim: a struct whose nested level
reuses the override name of the outer level builds successfully, the
same-level duplicate being absent. -/
theorem createModifiedType_dup_schema_witness :
    allExportedFields (.fcons "A" "confy:\"dup\"" true (.scalar "string")
        (.fcons "B" "" true
          (.strct (.fcons "C" "confy:\"dup\"" true (.scalar "int") .nil)) .nil)) = true ∧
      ((createModifiedType (.strct (.fcons "A" "confy:\"dup\"" true (.scalar "string")
        (.fcons "B" "" true
          (.strct (.fcons "C" "confy:\"dup\"" true (.scalar "int") .nil)) .nil)))).isOk : Bool) =
        dupFreeSpec (.strct (.fcons "A" "confy:\"dup\"" true (.scalar "string")
          (.fcons "B" "" true
            (.strct (.fcons "C" "confy:\"dup\"" true (.scalar "int") .nil)) .nil))) :=
  ⟨by decide,
    createModifiedType_dup_schema
      (.fcons "A" "confy:\"dup\"" true (.scalar "string")
        (.fcons "B" "" true
          (.strct (.fcons "C" "confy:\"dup\"" true (.scalar "int") .nil)) .nil))
      (by decide)⟩

/-- C10: two sibling fields whose renaming annotations both have an EMPTY
first semicolon segment (for example confy:"" and confy:";sensitive") are
registered under the same empty override name, so shadow-type
construction always fails, although neither field actually declares an
override name. -/
theorem emptyOverrides_collide (n1 tg1 : String) (ex1 : Bool) (ty1 : GoType)
    (n2 tg2 : String) (ex2 : Bool) (ty2 : GoType)
    (h1 : confyOverrideName tg1 = some "") (h2 : confyOverrideName tg2 = some "") :
    ((createModifiedType
      (.strct (.fcons n1 tg1 ex1 ty1 (.fcons n2 tg2 ex2 ty2 .nil)))).isOk : Bool) = false := by
  rw [createModifiedType_strct, modifyFields_cons]
  cases hs1 : modifyTypeStep ty1 with
  | error e => simp [except_bind_error, except_isOk_error]
  | ok t1 =>
    simp only [except_bind_ok, h1]
    rw [modifyFields_cons]
    cases hs2 : modifyTypeStep ty2 with
    | error e => simp [except_bind_error, except_isOk_error]
    | ok t2 => simp [except_bind_ok, except_bind_error, except_isOk_error, h2]

/-- Witness for the empty-override collision: the literal tags confy:""
and confy:";sensitive" on two sibling string fields. -/
theorem emptyOverrides_collide_witness :
    confyOverrideName "confy:\"\"" = some "" ∧
      confyOverrideName "confy:\";sensitive\"" = some "" ∧
      ((createModifiedType (.strct (.fcons "A" "confy:\"\"" true (.scalar "string")
        (.fcons "B" "confy:\";sensitive\"" true (.scalar "string") .nil)))).isOk : Bool) = false :=
  ⟨by decide, by decide,
    emptyOverrides_collide "A" "confy:\"\"" true (.scalar "string")
      "B" "confy:\";sensitive\"" true (.scalar "string") (by decide) (by decide)⟩

/-! ### C8: terminal errors versus warnings in Config -/

/-- Some configured loader reported that it set a value. -/
def anySetList (ls : List LoaderOutcome) : Bool :=
  ls.any (fun l => l.didSet)

theorem configGo_all_warnable : ∀ (ls : List LoaderOutcome) (n : Nat)
    (anySet : Bool) (ws : List LoaderErrKind),
    (∀ l ∈ ls, warnable n l = true) →
    configGo ls n anySet ws =
      (ws ++ ls.filterMap (fun l => l.err),
       if anySet || anySetList ls then none else some .nothingSet)
  | [], n, anySet, ws, _ => by cases anySet <;> simp [configGo, anySetList]
  | l :: rest, n, anySet, ws, h => by
    have hl := h l (List.mem_cons_self l rest)
    have hrest : ∀ x ∈ rest, warnable n x = true :=
      fun x hx => h x (List.mem_cons_of_mem _ hx)
    cases he : l.err with
    | none =>
      simp only [configGo, he]
      rw [configGo_all_warnable rest n (anySet || l.didSet) ws hrest]
      simp [anySetList, List.any_cons, he, Bool.or_assoc]
    | some e =>
      rw [warnable, he] at hl
      simp only [Bool.and_eq_true, Bool.not_eq_true', decide_eq_true_eq] at hl
      have hef : ¬ e = LoaderErrKind.fatal := by
        intro hc; rw [hc] at hl; simp at hl
      have heh : ¬ e = LoaderErrKind.help := by
        intro hc; rw [hc] at hl; simp at hl
      have hn : 1 < n := hl.2
      simp only [configGo, he]
      rw [if_neg hef, if_pos ⟨hn, heh⟩]
      rw [configGo_all_warnable rest n (anySet || l.didSet) (ws ++ [e]) hrest]
      simp [anySetList, List.any_cons, he, Bool.or_assoc]

theorem configGo_not_none : ∀ (ls : List LoaderOutcome) (n : Nat)
    (anySet : Bool) (ws : List LoaderErrKind),
    (∃ l ∈ ls, warnable n l = false) →
    ¬ (configGo ls n anySet ws).2 = none
  | [], _, _, _, h => by simp at h
  | l :: rest, n, anySet, ws, h => by
    cases he : l.err with
    | none =>
      simp only [configGo, he]
      rcases h with ⟨x, hx, hxw⟩
      rcases List.mem_cons.1 hx with rfl | hxr
      · rw [warnable, he] at hxw; simp at hxw
      · exact configGo_not_none rest n (anySet || l.didSet) ws ⟨x, hxr, hxw⟩
    | some e =>
      simp only [configGo, he]
      by_cases hef : e = LoaderErrKind.fatal
      · rw [if_pos hef]; simp
      · rw [if_neg hef]
        by_cases hcond : 1 < n ∧ ¬ e = LoaderErrKind.help
        · rw [if_pos hcond]
          rcases h with ⟨x, hx, hxw⟩
          rcases List.mem_cons.1 hx with rfl | hxr
          · rw [warnable, he] at hxw
            exfalso
            rw [Bool.and_eq_false_iff, Bool.and_eq_false_iff] at hxw
            rcases hxw with (hx1 | hx2) | hx3
            · rw [Bool.not_eq_false'] at hx1
              exact hef (by simpa using hx1)
            · rw [Bool.not_eq_false'] at hx2
              exact hcond.2 (by simpa using hx2)
            · rw [decide_eq_false_iff_not] at hx3
              exact hx3 hcond.1
          · exact configGo_not_none rest n (anySet || l.didSet) (ws ++ [e]) ⟨x, hxr, hxw⟩
        · rw [if_neg hcond]; simp

/-- C8 amended: Config returns no terminal error exactly when the option
functions succeeded, every configured loader outcome is warnable (no
error at all, or an error that is neither the fatal required-source class
nor the help class while more than one source is configured) and at least
one loader set something; in that case the warnings are exactly the
loader errors in order, and the best-effort result threaded through the
loaders is returned.  Terminal errors therefore also arise from option
errors, from ANY loader error when a single source is configured, from
the help error, and from the nothing-was-set condition, not only from
schema errors and required-source decode errors. -/
theorem configRun_terminal_iff (optErr : Bool) (ls : List LoaderOutcome) :
    ((configRun optErr ls).2 = none ↔
      optErr = false ∧ (∀ l ∈ ls, warnable ls.length l = true) ∧
        anySetList ls = true) ∧
    ((configRun optErr ls).2 = none →
      (configRun optErr ls).1 = ls.filterMap (fun l => l.err)) := by
  cases optErr with
  | true => simp [configRun]
  | false =>
    by_cases hw : ∀ l ∈ ls, warnable ls.length l = true
    · rw [configRun]
      simp only [Bool.false_eq_true, if_false]
      rw [configGo_all_warnable ls ls.length false [] hw]
      simp only [List.nil_append, Bool.false_or]
      cases hset : anySetList ls with
      | true =>
        simp only [if_pos rfl]
        exact ⟨⟨fun _ => ⟨trivial, hw, trivial⟩, fun _ => by simp⟩, fun _ => by simp⟩
      | false =>
        refine ⟨⟨fun hc => by simp at hc, ?_⟩, fun hc => by simp at hc⟩
        rintro ⟨_, _, hs⟩
        exact absurd hs (by simp)
    · have hex : ∃ l ∈ ls, warnable ls.length l = false := by
        push_neg at hw
        rcases hw with ⟨x, hx, hxw⟩
        exact ⟨x, hx, by simpa using hxw⟩
      have hnn := configGo_not_none ls ls.length false [] hex
      rw [configRun]
      simp only [Bool.false_eq_true, if_false]
      constructor
      · constructor
        · intro hc; exact absurd hc hnn
        · rintro ⟨_, hall, _⟩; exact absurd hall hw
      · intro hc; exact absurd hc hnn

/-- Counterexample to C8 as stated: with a single configured source whose
loader reports a plain (non-fatal, non-help) error - for example a decode
error on a source NOT marked required - Config returns a terminal error
rather than accumulating a warning and returning the best-effort result. -/
theorem configRun_single_other_is_terminal :
    (configRun false [⟨false, some .other⟩]).2 = some (.loaderErr .other) ∧
      ¬ LoaderErrKind.other = LoaderErrKind.fatal := by decide

/-! ### C3: name resolution through resolvePath -/

theorem walkVal_append : ∀ (a b : List String) (ct : GoType) (cv : GoVal),
    walkVal ct cv (a ++ b) =
      (walkVal ct cv a).bind (fun r => walkVal r.1 r.2 b)
  | [], _, _, _ => by simp [walkVal]
  | p :: a2, b, .strct fs, .strct vs => by
    simp only [List.cons_append, walkVal]
    cases hf : findFieldIdx fs p with
    | none => simp
    | some x => simp [walkVal_append a2 b x.2.2.2 (vs.vgetD x.1 (.scalar ""))]
  | p :: a2, b, .scalar k, cv => by cases cv <;> simp [walkVal]
  | p :: a2, b, .slice et, cv => by cases cv <;> simp [walkVal]
  | p :: a2, b, .array n et, cv => by cases cv <;> simp [walkVal]
  | p :: a2, b, .strct fs, .scalar s => by simp [walkVal]
  | p :: a2, b, .strct fs, .slice bb c es => by simp [walkVal]
  | p :: a2, b, .strct fs, .array es => by simp [walkVal]

theorem getField_append : ∀ (pre : List String) (rt ct : GoType) (cv : GoVal)
    (ct2 : GoType) (cv2 : GoVal) (seg : String),
    walkVal ct cv pre = some (ct2, cv2) →
    getField rt ct cv (pre ++ [seg]) = getField rt ct2 cv2 [seg]
  | [], rt, ct, cv, ct2, cv2, seg, h => by
    simp [walkVal] at h
    rw [h.1, h.2]
    simp
  | p :: pre2, rt, .strct fs, .strct vs, ct2, cv2, seg, h => by
    simp only [walkVal] at h
    cases hf : findFieldIdx fs p with
    | none => rw [hf] at h; simp at h
    | some x =>
      rw [hf] at h
      simp only [] at h
      have hrec := getField_append pre2 rt x.2.2.2 (vs.vgetD x.1 (.scalar "")) ct2 cv2 seg h
      cases pre2 with
      | nil =>
        simp only [List.nil_append] at hrec
        simp only [List.cons_append, List.nil_append, getField, hf]
        exact hrec
      | cons q pre3 =>
        simp only [List.cons_append, getField, hf] at hrec ⊢
        exact hrec
  | p :: pre2, rt, .scalar k, cv, ct2, cv2, seg, h => by
    cases cv <;> simp [walkVal] at h
  | p :: pre2, rt, .slice et, cv, ct2, cv2, seg, h => by
    cases cv <;> simp [walkVal] at h
  | p :: pre2, rt, .array n et, cv, ct2, cv2, seg, h => by
    cases cv <;> simp [walkVal] at h
  | p :: pre2, rt, .strct fs, .scalar s, ct2, cv2, seg, h => by simp [walkVal] at h
  | p :: pre2, rt, .strct fs, .slice bb c es, ct2, cv2, seg, h => by simp [walkVal] at h
  | p :: pre2, rt, .strct fs, .array es, ct2, cv2, seg, h => by simp [walkVal] at h

theorem tagLookup_empty (key : String) : tagLookup "" key = none := rfl

theorem resolvePathAux_valid : ∀ (rest pre : List String) (rt : GoType)
    (v : GoVal) (ct2 : GoType) (cv2 : GoVal),
    walkVal rt v pre = some (ct2, cv2) →
    (walkVal ct2 cv2 rest).isSome = true →
    resolvePathAux rt v pre rest = some (rest.map (rootResolve rt))
  | [], _, _, _, _, _, _, _ => rfl
  | seg :: rest2, pre, rt, v, .strct fs, .strct vs, hpre, hsome => by
    simp only [walkVal] at hsome
    cases hf : findFieldIdx fs seg with
    | none => rw [hf] at hsome; simp at hsome
    | some x =>
      rw [hf] at hsome
      have hstep : walkVal (GoType.strct fs) (GoVal.strct vs) [seg] =
          some (x.2.2.2, vs.vgetD x.1 (.scalar "")) := by
        simp [walkVal, hf]
      have hpre2 : walkVal rt v (pre ++ [seg]) =
          some (x.2.2.2, vs.vgetD x.1 (.scalar "")) := by
        rw [walkVal_append, hpre]
        simpa using hstep
      have hgf : getField rt rt v (pre ++ [seg]) =
          getField rt (.strct fs) (.strct vs) [seg] :=
        getField_append pre rt rt v (.strct fs) (.strct vs) seg hpre
      have ih := resolvePathAux_valid rest2 (pre ++ [seg]) rt v
        x.2.2.2 (vs.vgetD x.1 (.scalar "")) hpre2 hsome
      simp only [resolvePathAux, hgf, getField, hf, Option.bind_eq_bind,
        Option.some_bind, ih]
      congr 1
      rw [List.map_cons]
      congr 1
      rw [rootResolve]
      cases hroot : findFieldIdx (rootFields rt) seg with
      | none => simp [tagLookup_empty]
      | some y => rfl
  | seg :: rest2, pre, rt, v, .scalar k, cv2, hpre, hsome => by
    cases cv2 <;> simp [walkVal] at hsome
  | seg :: rest2, pre, rt, v, .slice et, cv2, hpre, hsome => by
    cases cv2 <;> simp [walkVal] at hsome
  | seg :: rest2, pre, rt, v, .array n et, cv2, hpre, hsome => by
    cases cv2 <;> simp [walkVal] at hsome
  | seg :: rest2, pre, rt, v, .strct fs, .scalar s, hpre, hsome => by
    simp [walkVal] at hsome
  | seg :: rest2, pre, rt, v, .strct fs, .slice bb c es, hpre, hsome => by
    simp [walkVal] at hsome
  | seg :: rest2, pre, rt, v, .strct fs, .array es, hpre, hsome => by
    simp [walkVal] at hsome

/-- C3 amended: resolvePath resolves each path segment by looking the
SEGMENT NAME up among the fields of the ROOT type only (getField never
advances its type while walking), and when that root field carries the
renaming annotation the segment resolves to the ENTIRE annotation value
verbatim - the sensitivity suffix included, an empty value yielding an
empty segment - while a segment whose name is not a root field, or whose
root field has no annotation, stays the declared identifier. -/
theorem resolvePath_root_whole_tag (rt : GoType) (v : GoVal)
    (path : List String) (h : pathValid rt v path = true) :
    resolvePath rt v path = some (path.map (rootResolve rt)) := by
  rw [pathValid, Bool.and_eq_true] at h
  exact resolvePathAux_valid path [] rt v rt v (by simp [walkVal]) h.2

/-- Witness for the amended resolution claim: a nested path whose leaf
carries an annotation that the root-level lookup cannot see, and a root
field with a suffixed annotation. -/
theorem resolvePath_root_whole_tag_witness :
    pathValid
        (.strct (.fcons "A" "confy:\"name;sensitive\"" true (.scalar "string")
          (.fcons "N" "" true
            (.strct (.fcons "M" "confy:\"mm\"" true (.scalar "string") .nil)) .nil)))
        (.strct (.vcons (.scalar "x")
          (.vcons (.strct (.vcons (.scalar "y") .nil)) .nil)))
        ["N", "M"] = true ∧
      resolvePath
        (.strct (.fcons "A" "confy:\"name;sensitive\"" true (.scalar "string")
          (.fcons "N" "" true
            (.strct (.fcons "M" "confy:\"mm\"" true (.scalar "string") .nil)) .nil)))
        (.strct (.vcons (.scalar "x")
          (.vcons (.strct (.vcons (.scalar "y") .nil)) .nil)))
        ["N", "M"] =
        some (["N", "M"].map (rootResolve
          (.strct (.fcons "A" "confy:\"name;sensitive\"" true (.scalar "string")
            (.fcons "N" "" true
              (.strct (.fcons "M" "confy:\"mm\"" true (.scalar "string") .nil)) .nil))))) :=
  ⟨by decide,
    resolvePath_root_whole_tag
      (.strct (.fcons "A" "confy:\"name;sensitive\"" true (.scalar "string")
        (.fcons "N" "" true
          (.strct (.fcons "M" "confy:\"mm\"" true (.scalar "string") .nil)) .nil)))
      (.strct (.vcons (.scalar "x")
        (.vcons (.strct (.vcons (.scalar "y") .nil)) .nil)))
      ["N", "M"] (by decide)⟩

/-- Counterexample to C3 as stated: for a root field annotated
confy:"name;sensitive", resolvePath keeps the WHOLE annotation value -
the sensitivity suffix appears in the resolved name, instead of the first
semicolon-delimited segment name. -/
theorem resolvePath_suffix_counterexample :
    resolvePath (.strct (.fcons "A" "confy:\"name;sensitive\"" true (.scalar "string") .nil))
        (.strct (.vcons (.scalar "x") .nil)) ["A"] = some ["name;sensitive"] ∧
      ¬ resolvePath (.strct (.fcons "A" "confy:\"name;sensitive\"" true (.scalar "string") .nil))
        (.strct (.vcons (.scalar "x") .nil)) ["A"] = some ["name"] := by decide

/-! ### C4: leaf enumeration of getFields -/

theorem getFieldsLoop_paths : ∀ (fs : GoFields) (vs : GoVals),
    conformsFields fs vs = true →
    (getFieldsLoop false fs vs).map (fun e => e.1) = leafPathsFields fs
  | .nil, .nil, _ => rfl
  | .nil, .vcons _ _, h => by simp [conformsFields] at h
  | .fcons _ _ _ _ _, .nil, h => by simp [conformsFields] at h
  | .fcons n tg ex (.strct sfs) fs, .vcons (.strct vfs) vs, h => by
    simp only [conformsFields, conforms, Bool.and_eq_true] at h
    have ih := getFieldsLoop_paths fs vs h.2
    have inner := getFieldsLoop_paths sfs vfs h.1
    cases ex with
    | false => simp [getFieldsLoop, leafPathsFields, ih]
    | true =>
      simp only [getFieldsLoop, getFields, leafPathsFields, leafPathsSpec,
        Bool.false_eq_true, if_false, List.nil_append, if_true,
        List.map_append, List.map_map, ih]
      congr 1
      rw [← inner, List.map_map]
      rfl
  | .fcons n tg ex (.strct sfs) fs, .vcons (.scalar s) vs, h => by
    simp [conformsFields, conforms] at h
  | .fcons n tg ex (.strct sfs) fs, .vcons (.slice b c es) vs, h => by
    simp [conformsFields, conforms] at h
  | .fcons n tg ex (.strct sfs) fs, .vcons (.array es) vs, h => by
    simp [conformsFields, conforms] at h
  | .fcons n tg ex (.scalar k) fs, .vcons v vs, h => by
    simp only [conformsFields, Bool.and_eq_true] at h
    have ih := getFieldsLoop_paths fs vs h.2
    cases ex <;> simp [getFieldsLoop, leafPathsFields, ih]
  | .fcons n tg ex (.slice et) fs, .vcons v vs, h => by
    simp only [conformsFields, Bool.and_eq_true] at h
    have ih := getFieldsLoop_paths fs vs h.2
    cases ex <;> simp [getFieldsLoop, leafPathsFields, ih]
  | .fcons n tg ex (.array m et) fs, .vcons v vs, h => by
    simp only [conformsFields, Bool.and_eq_true] at h
    have ih := getFieldsLoop_paths fs vs h.2
    cases ex <;> simp [getFieldsLoop, leafPathsFields, ih]

/-- C4: on a conforming struct value, getFields with returnStructs set to
false enumerates exactly the root-to-leaf paths of the exported non-struct
fields, in declaration order, depth first, whatever the nesting depth: one
entry per leaf, so a struct with no fields yields the empty sequence; the
function is total, with no error outcome. -/
theorem getFields_enumerates_leaves (fs : GoFields) (vs : GoVals)
    (h : conformsFields fs vs = true) :
    (getFields false (.strct fs) (.strct vs)).map (fun e => e.1) =
      leafPathsSpec (.strct fs) ∧
    (getFields false (.strct fs) (.strct vs)).length =
      (leafPathsSpec (.strct fs)).length := by
  have hp : (getFields false (.strct fs) (.strct vs)).map (fun e => e.1) =
      leafPathsSpec (.strct fs) := by
    simp only [getFields, leafPathsSpec]
    exact getFieldsLoop_paths fs vs h
  refine ⟨hp, ?_⟩
  rw [← hp, List.length_map]

/-- Witness for the enumeration claim: a struct with one unexported field,
one scalar leaf, a nested struct of two leaves and a slice leaf yields the
four exported leaf paths in order. -/
theorem getFields_enumerates_leaves_witness :
    conformsFields
        (.fcons "Hidden" "" false (.scalar "int")
          (.fcons "Thing" "confy:\"thing\"" true (.scalar "string")
            (.fcons "Nested" "" true
              (.strct (.fcons "A" "" true (.scalar "int")
                (.fcons "B" "" true (.scalar "bool") .nil)))
              (.fcons "Items" "" true (.slice (.scalar "string")) .nil))))
        (.vcons (.scalar "7")
          (.vcons (.scalar "x")
            (.vcons (.strct (.vcons (.scalar "1") (.vcons (.scalar "t") .nil)))
              (.vcons (.slice false 0 .nil) .nil)))) = true ∧
      (getFields false
        (.strct (.fcons "Hidden" "" false (.scalar "int")
          (.fcons "Thing" "confy:\"thing\"" true (.scalar "string")
            (.fcons "Nested" "" true
              (.strct (.fcons "A" "" true (.scalar "int")
                (.fcons "B" "" true (.scalar "bool") .nil)))
              (.fcons "Items" "" true (.slice (.scalar "string")) .nil)))))
        (.strct (.vcons (.scalar "7")
          (.vcons (.scalar "x")
            (.vcons (.strct (.vcons (.scalar "1") (.vcons (.scalar "t") .nil)))
              (.vcons (.slice false 0 .nil) .nil)))))).map (fun e => e.1) =
        leafPathsSpec (.strct (.fcons "Hidden" "" false (.scalar "int")
          (.fcons "Thing" "confy:\"thing\"" true (.scalar "string")
            (.fcons "Nested" "" true
              (.strct (.fcons "A" "" true (.scalar "int")
                (.fcons "B" "" true (.scalar "bool") .nil)))
              (.fcons "Items" "" true (.slice (.scalar "string")) .nil))))) :=
  ⟨by decide,
    (getFields_enumerates_leaves
      (.fcons "Hidden" "" false (.scalar "int")
        (.fcons "Thing" "confy:\"thing\"" true (.scalar "string")
          (.fcons "Nested" "" true
            (.strct (.fcons "A" "" true (.scalar "int")
              (.fcons "B" "" true (.scalar "bool") .nil)))
            (.fcons "Items" "" true (.slice (.scalar "string")) .nil))))
      (.vcons (.scalar "7")
        (.vcons (.scalar "x")
          (.vcons (.strct (.vcons (.scalar "1") (.vcons (.scalar "t") .nil)))
            (.vcons (.slice false 0 .nil) .nil))))
      (by decide)).1⟩


/-! ### C5: the per-field tag rewrite -/

/-- A well-formed tag key: nonempty and made of key characters, exactly
what the scanner itself produces. -/
def wfTagName (n : String) : Bool :=
  !(n.toList.isEmpty) && n.toList.all nameChar

/-- A tag value free of quotes and escapes, so that re-serializing it
between quotes is faithful. -/
def wfTagValue (v : String) : Bool :=
  v.toList.all (fun c => !(c == '"') && !(c == '\\'))

theorem toList_mk (cs : List Char) : (String.mk cs).toList = cs := rfl

theorem mk_toList (s : String) : String.mk s.toList = s := rfl

theorem unescapeChars_wf : ∀ (v : List Char),
    (∀ c ∈ v, (!(c == '"') && !(c == '\\')) = true) → unescapeChars v = v
  | [], _ => rfl
  | c :: v2, h => by
    have hc := h c (List.mem_cons_self c v2)
    simp only [Bool.and_eq_true, Bool.not_eq_true'] at hc
    rw [unescapeChars.eq_def]
    simp [hc.2, unescapeChars_wf v2 (fun x hx => h x (List.mem_cons_of_mem _ hx))]

theorem scanQuoted_wf : ∀ (v rest : List Char),
    (∀ c ∈ v, (!(c == '"') && !(c == '\\')) = true) →
    scanQuoted (v ++ '"' :: rest) = some (v, rest)
  | [], rest, _ => by rw [List.nil_append, scanQuoted.eq_def]; simp
  | c :: v2, rest, h => by
    have hc := h c (List.mem_cons_self c v2)
    simp only [Bool.and_eq_true, Bool.not_eq_true'] at hc
    rw [List.cons_append, scanQuoted.eq_def]
    simp [hc.1, hc.2,
      scanQuoted_wf v2 rest (fun x hx => h x (List.mem_cons_of_mem _ hx))]

theorem takeWhile_all_append (p : Char → Bool) : ∀ (l r : List Char),
    (∀ c ∈ l, p c = true) → (∀ c, r.head? = some c → p c = false) →
    (l ++ r).takeWhile p = l ∧ (l ++ r).dropWhile p = r
  | [], r, _, hr => by
    cases r with
    | nil => simp
    | cons c r2 =>
      have := hr c rfl
      simp [List.takeWhile_cons, List.dropWhile_cons, this]
  | c :: l2, r, hl, hr => by
    have hc := hl c (List.mem_cons_self c l2)
    have ih := takeWhile_all_append p l2 r
      (fun x hx => hl x (List.mem_cons_of_mem _ hx)) hr
    simp [List.takeWhile_cons, List.dropWhile_cons, hc, ih.1, ih.2]

theorem nameChar_not_space (c : Char) (h : nameChar c = true) : (c == ' ') = false := by
  rw [nameChar] at h
  simp only [Bool.and_eq_true, decide_eq_true_eq] at h
  have h32 := h.1.1.1
  cases hcc : c == ' ' with
  | false => rfl
  | true =>
    rw [beq_iff_eq] at hcc
    rw [hcc] at h32
    exact absurd h32 (by decide)

theorem tagScanAux_space (f : Nat) (cs : List Char) :
    tagScanAux (f + 1) (' ' :: cs) = tagScanAux (f + 1) cs := by
  conv_lhs => rw [tagScanAux.eq_def]
  conv_rhs => rw [tagScanAux.eq_def]
  simp only [List.dropWhile_cons]
  norm_num

theorem tagScanAux_step (f : Nat) (n v : String) (rest : List Char)
    (hn : wfTagName n = true) (hv : wfTagValue v = true) :
    tagScanAux (f + 1) (pairChars (n, v) ++ rest) = (n, v) :: tagScanAux f rest := by
  rw [wfTagName, Bool.and_eq_true, Bool.not_eq_true'] at hn
  rw [wfTagValue] at hv
  rw [List.all_eq_true] at hn hv
  have hne := hn.1
  have hname := hn.2
  obtain ⟨c0, l2, hl⟩ : ∃ c0 l2, n.toList = c0 :: l2 := by
    cases hcase : n.toList with
    | nil => rw [hcase] at hne; simp at hne
    | cons a b => exact ⟨a, b, rfl⟩
  have hc0 : nameChar c0 = true := by
    apply hname
    rw [hl]
    exact List.mem_cons_self c0 l2
  have hcolon : ∀ c, (':' :: '"' :: (v.toList ++ '"' :: rest)).head? = some c →
      nameChar c = false := by
    intro c hcc
    simp at hcc
    rw [← hcc]
    decide
  have hspan := takeWhile_all_append nameChar n.toList
    (':' :: '"' :: (v.toList ++ '"' :: rest)) hname hcolon
  rw [hl] at hspan
  have hshape : pairChars (n, v) ++ rest =
      c0 :: (l2 ++ ':' :: '"' :: (v.toList ++ '"' :: rest)) := by
    simp [pairChars, show n.data = c0 :: l2 from hl]
  have hnospace : List.dropWhile (fun c => c == ' ')
      (c0 :: (l2 ++ ':' :: '"' :: (v.toList ++ '"' :: rest))) =
      c0 :: (l2 ++ ':' :: '"' :: (v.toList ++ '"' :: rest)) := by
    rw [List.dropWhile_cons]
    simp [nameChar_not_space c0 hc0]
  simp only [List.cons_append] at hspan
  rw [hshape, tagScanAux.eq_def]
  simp only [hnospace, hspan.1, hspan.2]
  rw [scanQuoted_wf v.toList rest (fun c hcm => hv c hcm)]
  simp only []
  rw [unescapeChars_wf v.toList (fun c hcm => hv c hcm)]
  simp [← hl]

theorem tagScanAux_nil : ∀ (f : Nat), tagScanAux f [] = []
  | 0 => rfl
  | f + 1 => by rw [tagScanAux.eq_def]; simp

theorem rebuildChars_ge : ∀ (ps : List (String × String)),
    (∀ p ∈ ps, wfTagName p.1 = true) → ps.length ≤ (rebuildChars ps).length
  | [], _ => Nat.le_refl 0
  | [p], h => by
    have hp := h p (List.mem_cons_self p [])
    rw [wfTagName, Bool.and_eq_true, Bool.not_eq_true'] at hp
    simp only [rebuildChars, pairChars, List.length_cons, List.length_nil,
      List.length_append]
    cases hc : p.1.toList with
    | nil => rw [hc] at hp; simp at hp
    | cons a b => simp [hc]
  | p :: q :: ps, h => by
    have ih := rebuildChars_ge (q :: ps)
      (fun x hx => h x (List.mem_cons_of_mem _ hx))
    simp only [rebuildChars, List.length_append, List.length_cons] at ih ⊢
    omega

theorem tagScanAux_rebuild : ∀ (ps : List (String × String)) (fuel : Nat),
    ps.length < fuel →
    (∀ p ∈ ps, wfTagName p.1 = true ∧ wfTagValue p.2 = true) →
    tagScanAux fuel (rebuildChars ps) = ps
  | [], fuel, hf, _ => by
    cases fuel with
    | zero => omega
    | succ f => simpa [rebuildChars] using tagScanAux_nil (f + 1)
  | (n, v) :: ps2, fuel, hf, hwf => by
    have hp := hwf (n, v) (List.mem_cons_self _ _)
    cases fuel with
    | zero => omega
    | succ f =>
      cases ps2 with
      | nil =>
        have hone : rebuildChars [(n, v)] = pairChars (n, v) ++ [] := by
          simp [rebuildChars]
        rw [hone, tagScanAux_step f n v [] hp.1 hp.2, tagScanAux_nil]
      | cons q ps3 =>
        have hshape : rebuildChars ((n, v) :: q :: ps3) =
            pairChars (n, v) ++ ' ' :: rebuildChars (q :: ps3) := by
          simp [rebuildChars]
        rw [hshape, tagScanAux_step f n v (' ' :: rebuildChars (q :: ps3)) hp.1 hp.2]
        cases f with
        | zero => simp at hf
        | succ f2 =>
          rw [tagScanAux_space f2 (rebuildChars (q :: ps3))]
          rw [tagScanAux_rebuild (q :: ps3) (f2 + 1) (by simp at hf ⊢; omega)
            (fun x hx => hwf x (List.mem_cons_of_mem _ hx))]

theorem tagScan_rebuild (ps : List (String × String))
    (hwf : ∀ p ∈ ps, wfTagName p.1 = true ∧ wfTagValue p.2 = true) :
    tagScan (rebuildTags ps) = ps := by
  rw [tagScan, rebuildTags, toList_mk]
  apply tagScanAux_rebuild ps _ _ hwf
  have := rebuildChars_ge ps (fun p hp => (hwf p hp).1)
  omega

theorem lookupFirst_append (a b : List (String × String)) (k : String) :
    lookupFirst (a ++ b) k =
      match lookupFirst a k with
      | some v => some v
      | none => lookupFirst b k := by
  induction a with
  | nil => simp [lookupFirst]
  | cons p a2 ih =>
    simp only [List.cons_append, lookupFirst]
    by_cases hp : p.1 == k
    · simp [hp]
    · simp only [hp, Bool.false_eq_true, if_false] at ih ⊢
      exact ih

theorem lookupFirst_mem : ∀ (ps : List (String × String)) (k v : String),
    lookupFirst ps k = some v → (k, v) ∈ ps
  | [], _, _, h => by simp [lookupFirst] at h
  | p :: ps2, k, v, h => by
    rw [lookupFirst] at h
    by_cases hp : p.1 == k
    · rw [if_pos hp] at h
      have hk : p.1 = k := by simpa using hp
      have hv : p.2 = v := by simpa using h
      have hpv : (k, v) = p := by
        cases p
        simp only at hk hv
        rw [← hk, ← hv]
      rw [hpv]
      exact List.mem_cons_self _ _
    · rw [if_neg hp] at h
      exact List.mem_cons_of_mem _ (lookupFirst_mem ps2 k v h)

theorem lookupFirst_isSome_iff : ∀ (ps : List (String × String)) (k : String),
    (lookupFirst ps k).isSome = true ↔ k ∈ ps.map (fun p => p.1)
  | [], k => by simp [lookupFirst]
  | p :: ps2, k => by
    rw [lookupFirst]
    by_cases hp : p.1 == k
    · have hk : p.1 = k := by simpa using hp
      simp [hp, hk]
    · have hk : ¬ p.1 = k := by simpa using hp
      simp only [hp, Bool.false_eq_true, if_false, List.map_cons, List.mem_cons]
      rw [lookupFirst_isSome_iff ps2 k]
      constructor
      · exact Or.inr
      · rintro (hc | hc)
        · exact absurd hc.symm hk
        · exact hc

theorem lookupFirst_eq_none : ∀ (ps : List (String × String)) (k : String),
    (∀ p ∈ ps, ¬ p.1 = k) → lookupFirst ps k = none
  | [], _, _ => rfl
  | p :: ps2, k, h => by
    rw [lookupFirst]
    have hp : ¬ p.1 = k := h p (List.mem_cons_self _ _)
    rw [if_neg (by simpa using hp)]
    exact lookupFirst_eq_none ps2 k (fun x hx => h x (List.mem_cons_of_mem _ hx))

theorem lookupFirst_filterMap (ps : List (String × String)) :
    ∀ (ns : List String) (k : String),
    lookupFirst (ns.filterMap (fun n2 => (lookupFirst ps n2).map (fun v => (n2, v)))) k =
      if k ∈ ns then lookupFirst ps k else none
  | [], k => by simp [lookupFirst]
  | n :: ns, k => by
    cases hn : lookupFirst ps n with
    | none =>
      have hfm : (fun n2 => (lookupFirst ps n2).map (fun v => (n2, v))) n = none := by
        simp [hn]
      rw [@List.filterMap_cons_none String (String × String)
        (fun n2 => (lookupFirst ps n2).map (fun v => (n2, v))) n ns hfm]
      rw [lookupFirst_filterMap ps ns k]
      by_cases hk : k = n
      · subst hk
        simp [hn]
      · simp [hk]
    | some v =>
      have hfm : (fun n2 => (lookupFirst ps n2).map (fun v2 => (n2, v2))) n =
          some (n, v) := by
        simp [hn]
      rw [@List.filterMap_cons_some String (String × String)
        (fun n2 => (lookupFirst ps n2).map (fun v => (n2, v))) n ns (n, v) hfm]
      rw [lookupFirst]
      by_cases hk : n = k
      · subst hk
        simp [hn]
      · rw [if_neg (by simpa using hk)]
        rw [lookupFirst_filterMap ps ns k]
        have hmem : (k ∈ n :: ns) ↔ (k ∈ ns) := by
          rw [List.mem_cons]
          exact ⟨fun hc => hc.resolve_left (fun he => hk he.symm), Or.inr⟩
        by_cases hkm : k ∈ ns
        · rw [if_pos hkm, if_pos (hmem.2 hkm)]
        · rw [if_neg hkm, if_neg (fun hc => hkm (hmem.1 hc))]

theorem lookupFirst_filter_of_mem (k v : String)
    (pred : String × String → Bool) : ∀ (l : List (String × String)),
    (∀ p ∈ l, p.1 = k → p = (k, v)) → (k, v) ∈ l → pred (k, v) = true →
    lookupFirst (l.filter pred) k = some v
  | [], _, hm, _ => by simp at hm
  | p :: l2, hu, hm, hp => by
    by_cases hpk : p = (k, v)
    · subst hpk
      rw [List.filter_cons, if_pos (by simpa using hp), lookupFirst]
      simp
    · have hne : ¬ p.1 = k := fun hc => hpk (hu p (List.mem_cons_self _ _) hc)
      have hm2 : (k, v) ∈ l2 := by
        rcases List.mem_cons.1 hm with hc | hc
        · exact absurd hc.symm hpk
        · exact hc
      have ih := lookupFirst_filter_of_mem k v pred l2
        (fun x hx => hu x (List.mem_cons_of_mem _ hx)) hm2 hp
      rw [List.filter_cons]
      by_cases hkeep : pred p = true
      · rw [if_pos (by simpa using hkeep), lookupFirst,
          if_neg (by simpa using hne)]
        exact ih
      · rw [if_neg (by simpa using hkeep)]
        exact ih

theorem rewriteTag_scan (fieldName tag : String)
    (hwf : ∀ p ∈ tagScan tag, wfTagName p.1 = true ∧ wfTagValue p.2 = true)
    (hfn : wfTagValue fieldName = true)
    (hov : wfTagValue ((confyOverrideName tag).getD "") = true) :
    tagScan (rewriteTag fieldName tag) =
      preservedPairs tag ++ injectedPairs fieldName tag := by
  rw [rewriteTag]
  apply tagScan_rebuild
  intro p hp
  rcases List.mem_append.1 hp with hmem | hmem
  · rw [preservedPairs] at hmem
    rcases List.mem_filterMap.1 hmem with ⟨n2, hn2, hsome⟩
    cases hl : tagLookup tag n2 with
    | none => rw [hl] at hsome; simp at hsome
    | some v =>
      rw [hl] at hsome
      simp at hsome
      have hmemp : (n2, v) ∈ tagScan tag := lookupFirst_mem _ _ _ hl
      rw [← hsome]
      exact hwf (n2, v) hmemp
  · rw [injectedPairs] at hmem
    have hmem2 := List.mem_of_mem_filter hmem
    rw [confyTagNames] at hmem2
    by_cases hm : (confyOverrideName tag).getD "" ≠ ""
    · rw [if_pos hm] at hmem2
      rcases List.mem_map.1 hmem2 with ⟨t, ht, hteq⟩
      rw [← hteq]
      simp only [supportedTags, List.mem_cons, List.not_mem_nil, or_false] at ht
      rcases ht with rfl | rfl | rfl
      · exact ⟨show wfTagName "json" = true by decide, hov⟩
      · exact ⟨show wfTagName "yaml" = true by decide, hov⟩
      · exact ⟨show wfTagName "toml" = true by decide, hov⟩
    · rw [if_neg hm] at hmem2
      simp at hmem2
      rw [hmem2]
      exact ⟨show wfTagName "yaml" = true by decide, hfn⟩

/-- C5: the lookup of each supported format tag on the rewritten field
tag: a json, yaml or toml tag explicitly present on the original field is
preserved verbatim; for a format without an explicit tag, a non-empty
override name is injected (for all three formats alike); with no override
name, only the yaml fallback equal to the declared field identifier is
injected, the other formats staying absent.  The hypotheses say the
original tag and the injected names are escape-free, which every tag this
repository consumes satisfies. -/
theorem rewriteTag_formats (fieldName tag fmt : String)
    (hfmt : fmt ∈ supportedTags)
    (hwf : ∀ p ∈ tagScan tag, wfTagName p.1 = true ∧ wfTagValue p.2 = true)
    (hfn : wfTagValue fieldName = true)
    (hov : wfTagValue ((confyOverrideName tag).getD "") = true) :
    tagLookup (rewriteTag fieldName tag) fmt =
      match tagLookup tag fmt with
      | some val => some val
      | none =>
        if (confyOverrideName tag).getD "" ≠ "" then
          some ((confyOverrideName tag).getD "")
        else if fmt = "yaml" then some fieldName
        else none := by
  rw [tagLookup, rewriteTag_scan fieldName tag hwf hfn hov, lookupFirst_append]
  have hpres : lookupFirst (preservedPairs tag) fmt = tagLookup tag fmt := by
    rw [preservedPairs, getAllTagNames]
    simp only [tagLookup]
    rw [lookupFirst_filterMap (tagScan tag) ((tagScan tag).map (fun p => p.1)) fmt]
    by_cases hmem : fmt ∈ (tagScan tag).map (fun p => p.1)
    · rw [if_pos hmem]
    · rw [if_neg hmem]
      cases hl : lookupFirst (tagScan tag) fmt with
      | none => rfl
      | some v =>
        exact absurd ((lookupFirst_isSome_iff _ _).1 (by simp [hl])) hmem
  rw [hpres]
  cases hl : tagLookup tag fmt with
  | some val => rfl
  | none =>
    simp only []
    have hnotset : ¬ fmt ∈ (preservedPairs tag).map (fun q => q.1) := by
      intro hc
      have hs := (lookupFirst_isSome_iff (preservedPairs tag) fmt).2 hc
      rw [hpres, hl] at hs
      simp at hs
    have hpred : ∀ x : String,
        (fun p : String × String =>
          !((preservedPairs tag).map (fun q => q.1)).contains p.1) (fmt, x) = true := by
      intro x
      simp only []
      cases hc : ((preservedPairs tag).map (fun q => q.1)).contains fmt with
      | false => rfl
      | true => exact absurd (List.elem_iff.1 hc) hnotset
    rw [injectedPairs, confyTagNames]
    by_cases hm : (confyOverrideName tag).getD "" ≠ ""
    · simp only [if_pos hm]
      refine lookupFirst_filter_of_mem fmt ((confyOverrideName tag).getD "") _
        (supportedTags.map (fun t => (t, (confyOverrideName tag).getD ""))) ?_ ?_ ?_
      · intro p hp hp1
        rcases List.mem_map.1 hp with ⟨t, ht, hteq⟩
        rw [← hteq]
        rw [← hteq] at hp1
        have hteq2 : t = fmt := hp1
        rw [hteq2]
      · exact List.mem_map.2 ⟨fmt, hfmt, rfl⟩
      · exact hpred _
    · simp only [if_neg hm]
      by_cases hy : fmt = "yaml"
      · subst hy
        rw [if_pos rfl]
        refine lookupFirst_filter_of_mem "yaml" fieldName _ [("yaml", fieldName)] ?_ ?_ ?_
        · intro p hp hp1
          simp only [List.mem_singleton] at hp
          exact hp
        · exact List.mem_singleton.2 rfl
        · exact hpred fieldName
      · rw [if_neg hy]
        apply lookupFirst_eq_none
        intro p hp
        have hp2 := List.mem_of_mem_filter hp
        simp only [List.mem_singleton] at hp2
        rw [hp2]
        simpa using fun hc => hy hc.symm

/-- Witness for the tag-rewrite claim: a field with an explicit json tag
and an override name keeps the json tag verbatim. -/
theorem rewriteTag_formats_witness :
    tagLookup (rewriteTag "Thing" "json:\"xx\" confy:\"th\"") "json" =
      match tagLookup "json:\"xx\" confy:\"th\"" "json" with
      | some val => some val
      | none =>
        if (confyOverrideName "json:\"xx\" confy:\"th\"").getD "" ≠ "" then
          some ((confyOverrideName "json:\"xx\" confy:\"th\"").getD "")
        else if "json" = "yaml" then some "Thing"
        else none :=
  rewriteTag_formats "Thing" "json:\"xx\" confy:\"th\"" "json"
    (by decide) (by decide) (by decide) (by decide)

/-! ### C1: the decode-transplant round trip -/

theorem vset_vlen : ∀ (vs : GoVals) (i : Nat) (w : GoVal),
    (vs.vset i w).vlen = vs.vlen
  | .nil, _, _ => rfl
  | .vcons _ _, 0, _ => rfl
  | .vcons v rest, i + 1, w => by
    simp [GoVals.vset, GoVals.vlen, vset_vlen rest i w]

theorem vgetD_vset : ∀ (vs : GoVals) (i : Nat) (w d : GoVal), i < vs.vlen →
    (vs.vset i w).vgetD i d = w
  | .nil, i, _, _, h => by simp [GoVals.vlen] at h
  | .vcons _ _, 0, _, _, _ => rfl
  | .vcons v rest, i + 1, w, d, h => by
    simp only [GoVals.vlen] at h
    exact vgetD_vset rest i w d (by omega)

theorem vset_vset : ∀ (vs : GoVals) (i : Nat) (a b : GoVal),
    (vs.vset i a).vset i b = vs.vset i b
  | .nil, _, _, _ => rfl
  | .vcons _ _, 0, _, _ => rfl
  | .vcons v rest, i + 1, a, b => by
    simp [GoVals.vset, vset_vset rest i a b]

theorem vappend_cons_mid : ∀ (a : GoVals) (v : GoVal) (b : GoVals),
    (a.vappend (.vcons v .nil)).vappend b = a.vappend (.vcons v b)
  | .nil, _, _ => rfl
  | .vcons x rest, v, b => by
    simp [GoVals.vappend, vappend_cons_mid rest v b]

theorem vtake_vset_succ : ∀ (ws : GoVals) (b : Nat) (v : GoVal), b < ws.vlen →
    (ws.vset b v).vtake (b + 1) = (ws.vtake b).vappend (.vcons v .nil)
  | .nil, b, _, h => by simp [GoVals.vlen] at h
  | .vcons w rest, 0, v, _ => by
    simp [GoVals.vset, GoVals.vtake, GoVals.vappend]
  | .vcons w rest, b + 1, v, h => by
    simp only [GoVals.vlen] at h
    simp [GoVals.vset, GoVals.vtake, GoVals.vappend,
      vtake_vset_succ rest b v (by omega)]

theorem vtake_zero (ws : GoVals) : ws.vtake 0 = .nil := by
  cases ws <;> rfl

theorem vappend_nil_left (b : GoVals) : (GoVals.nil).vappend b = b := rfl

theorem findFieldIdx_lt : ∀ (fs : GoFields) (n : String)
    (r : Nat × String × Bool × GoType),
    findFieldIdx fs n = some r → r.1 < fs.flen
  | .nil, _, _, h => by simp [findFieldIdx] at h
  | .fcons n0 tg0 ex0 ty0 rest, n, r, h => by
    rw [findFieldIdx] at h
    by_cases he : n0 == n
    · rw [if_pos he] at h
      simp at h
      rw [← h]
      simp [GoFields.flen]
    · rw [if_neg he] at h
      cases hr : findFieldIdx rest n with
      | none => rw [hr] at h; simp at h
      | some r2 =>
        rw [hr] at h
        simp at h
        have := findFieldIdx_lt rest n r2 hr
        rw [← h]
        simp [GoFields.flen]
        omega

theorem findFieldIdx_mem : ∀ (fs : GoFields) (n : String)
    (r : Nat × String × Bool × GoType),
    findFieldIdx fs n = some r → n ∈ fieldNames fs
  | .nil, _, _, h => by simp [findFieldIdx] at h
  | .fcons n0 tg0 ex0 ty0 rest, n, r, h => by
    rw [findFieldIdx] at h
    by_cases he : n0 == n
    · have : n0 = n := by simpa using he
      rw [fieldNames, this]
      exact List.mem_cons_self _ _
    · rw [if_neg he] at h
      cases hr : findFieldIdx rest n with
      | none => rw [hr] at h; simp at h
      | some r2 =>
        exact List.mem_cons_of_mem _ (findFieldIdx_mem rest n r2 hr)

theorem conformsFields_vlen : ∀ (fs : GoFields) (vs : GoVals),
    conformsFields fs vs = true → vs.vlen = fs.flen
  | .nil, .nil, _ => rfl
  | .nil, .vcons _ _, h => by simp [conformsFields] at h
  | .fcons _ _ _ _ _, .nil, h => by simp [conformsFields] at h
  | .fcons n tg ex ty rest, .vcons v vs, h => by
    simp only [conformsFields, Bool.and_eq_true] at h
    simp [GoVals.vlen, GoFields.flen, conformsFields_vlen rest vs h.2]

theorem findFieldIdx_conforms : ∀ (fs : GoFields) (n : String) (i : Nat)
    (tg : String) (ex : Bool) (ty : GoType) (vs : GoVals) (d : GoVal),
    findFieldIdx fs n = some (i, tg, ex, ty) → conformsFields fs vs = true →
    conforms ty (vs.vgetD i d) = true
  | .nil, _, _, _, _, _, _, _, h, _ => by simp [findFieldIdx] at h
  | .fcons n0 tg0 ex0 ty0 rest, n, i, tg, ex, ty, vs, d, h, hc => by
    cases vs with
    | nil => simp [conformsFields] at hc
    | vcons v vs2 =>
      simp only [conformsFields, Bool.and_eq_true] at hc
      rw [findFieldIdx] at h
      by_cases he : n0 == n
      · rw [if_pos he] at h
        simp at h
        obtain ⟨hi, htg, hex, hty⟩ := h
        rw [← hi, ← hty]
        exact hc.1
      · rw [if_neg he] at h
        cases hr : findFieldIdx rest n with
        | none => rw [hr] at h; simp at h
        | some r2 =>
          rw [hr] at h
          simp at h
          have hi := h.1
          have hty : r2.2.2.2 = ty := by rw [h.2]
          rw [← hi]
          simp only [GoVals.vgetD]
          have hr2 : findFieldIdx rest n = some (r2.1, r2.2.1, r2.2.2.1, r2.2.2.2) := by
            rw [hr]
          rw [← hty]
          exact findFieldIdx_conforms rest n r2.1 r2.2.1 r2.2.2.1 r2.2.2.2 vs2 d hr2 hc.2
        
theorem conformsFields_vset : ∀ (fs : GoFields) (n : String) (i : Nat)
    (tg : String) (ex : Bool) (ty : GoType) (vs : GoVals) (w : GoVal),
    findFieldIdx fs n = some (i, tg, ex, ty) → conformsFields fs vs = true →
    conforms ty w = true → conformsFields fs (vs.vset i w) = true
  | .nil, _, _, _, _, _, _, _, h, _, _ => by simp [findFieldIdx] at h
  | .fcons n0 tg0 ex0 ty0 rest, n, i, tg, ex, ty, vs, w, h, hc, hw => by
    cases vs with
    | nil => simp [conformsFields] at hc
    | vcons v vs2 =>
      simp only [conformsFields, Bool.and_eq_true] at hc
      rw [findFieldIdx] at h
      by_cases he : n0 == n
      · rw [if_pos he] at h
        simp at h
        obtain ⟨hi, htg, hex, hty⟩ := h
        rw [← hi]
        simp only [GoVals.vset, conformsFields, Bool.and_eq_true]
        rw [hty]
        exact ⟨hw, hc.2⟩
      · rw [if_neg he] at h
        cases hr : findFieldIdx rest n with
        | none => rw [hr] at h; simp at h
        | some r2 =>
          rw [hr] at h
          simp at h
          rw [← h.1]
          simp only [GoVals.vset, conformsFields, Bool.and_eq_true]
          refine ⟨hc.1, ?_⟩
          have hr2 : findFieldIdx rest n = some (r2.1, r2.2.1, r2.2.2.1, r2.2.2.2) := by
            rw [hr]
          have hty : r2.2.2.2 = ty := by rw [h.2]
          exact conformsFields_vset rest n r2.1 r2.2.1 r2.2.2.1 ty vs2 w
            (by rw [hr2, hty]) hc.2 hw

mutual

theorem conforms_zeroVal : ∀ (ty : GoType), conforms ty (zeroVal ty) = true
  | .scalar _ => rfl
  | .strct fs => by
    simp only [zeroVal, conforms]
    exact conformsFields_zeroFields fs
  | .slice _ => by simp [zeroVal, conforms, conformsElems, GoVals.vlen]
  | .array n et => by
    simp only [zeroVal, conforms, Bool.and_eq_true]
    refine ⟨by simp [replicateVals_vlen], conformsElems_replicate n et⟩

theorem conformsFields_zeroFields : ∀ (fs : GoFields),
    conformsFields fs (zeroFields fs) = true
  | .nil => rfl
  | .fcons n tg ex ty rest => by
    simp only [zeroFields, conformsFields, Bool.and_eq_true]
    exact ⟨conforms_zeroVal ty, conformsFields_zeroFields rest⟩

theorem conformsElems_replicate : ∀ (n : Nat) (et : GoType),
    conformsElems et (replicateVals n (zeroVal et)) = true
  | 0, _ => rfl
  | n + 1, et => by
    simp only [replicateVals, conformsElems, Bool.and_eq_true]
    exact ⟨conforms_zeroVal et, conformsElems_replicate n et⟩

end

mutual

theorem deepEq_refl : ∀ (v : GoVal), deepEq v v = true
  | .scalar _ => by simp [deepEq]
  | .strct vs => by simp only [deepEq]; exact deepEqList_refl vs
  | .slice b c es => by
    simp only [deepEq, Bool.and_eq_true]
    exact ⟨by simp, deepEqList_refl es⟩
  | .array es => by simp only [deepEq]; exact deepEqList_refl es

theorem deepEqList_refl : ∀ (vs : GoVals), deepEqList vs vs = true
  | .nil => rfl
  | .vcons v vs => by
    simp only [deepEqList, Bool.and_eq_true]
    exact ⟨deepEq_refl v, deepEqList_refl vs⟩

end

mutual

theorem copyVal_id : ∀ (ty : GoType) (v : GoVal),
    conforms ty v = true → noNilSlice v = true →
    (match ty with
     | .slice et => setArray (.slice et) v
     | .array n et => setArray (.array n et) v
     | .strct sfs => setStruct (.strct sfs) v
     | .scalar _ => v) = v
  | .scalar _, _, _, _ => rfl
  | .strct sfs, v, hc, hn => by
    cases v with
    | strct vfs =>
      simp only [setStruct]
      simp only [conforms] at hc
      simp only [noNilSlice] at hn
      rw [copyFields_id sfs vfs hc hn]
    | scalar _ => simp [conforms] at hc
    | slice _ _ _ => simp [conforms] at hc
    | array _ => simp [conforms] at hc
  | .slice et, v, hc, hn => by
    cases v with
    | slice b c es =>
      simp only [setArray]
      simp only [conforms, Bool.and_eq_true] at hc
      simp only [noNilSlice, Bool.and_eq_true, Bool.not_eq_true'] at hn
      rw [copyElems_id et es hc.2 hn.2, hn.1]
    | scalar _ => simp [conforms] at hc
    | strct _ => simp [conforms] at hc
    | array _ => simp [conforms] at hc
  | .array n et, v, hc, hn => by
    cases v with
    | array es =>
      simp only [setArray]
      simp only [conforms, Bool.and_eq_true] at hc
      simp only [noNilSlice] at hn
      rw [copyElems_id et es hc.2 hn]
      rw [overwriteSeq_full (zeroList n et) es
        (by rw [zeroList_vlen]; have h2 : es.vlen = n := by simpa using hc.1
            omega)]
    | scalar _ => simp [conforms] at hc
    | strct _ => simp [conforms] at hc
    | slice _ _ _ => simp [conforms] at hc

theorem copyFields_id : ∀ (tfs : GoFields) (vs : GoVals),
    conformsFields tfs vs = true → noNilSliceList vs = true →
    copyFields tfs vs = vs
  | .nil, .nil, _, _ => rfl
  | .fcons _ _ _ _ _, .nil, hc, _ => by simp [conformsFields] at hc
  | .nil, .vcons _ _, hc, _ => by simp [conformsFields] at hc
  | .fcons n tg ex ty tfs, .vcons v vs, hc, hn => by
    simp only [conformsFields, Bool.and_eq_true] at hc
    simp only [noNilSliceList, Bool.and_eq_true] at hn
    simp only [copyFields]
    rw [copyFields_id tfs vs hc.2 hn.2]
    have hv := copyVal_id ty v hc.1 hn.1
    exact congrArg (fun w => GoVals.vcons w vs) hv

theorem copyElems_id : ∀ (et : GoType) (es : GoVals),
    conformsElems et es = true → noNilSliceList es = true →
    copyElems et es = es
  | _, .nil, _, _ => rfl
  | et, .vcons (.strct efs) es, hc, hn => by
    simp only [conformsElems, Bool.and_eq_true] at hc
    simp only [noNilSliceList, Bool.and_eq_true] at hn
    simp only [copyElems]
    rw [copyElems_id et es hc.2 hn.2]
    cases et with
    | strct tfs =>
      simp only [conforms] at hc
      simp only [noNilSlice] at hn
      have hcf : GoVal.strct (copyFields tfs efs) = GoVal.strct efs := by
        rw [copyFields_id tfs efs hc.1 hn.1]
      exact congrArg (fun w => GoVals.vcons w es) hcf
    | scalar _ => simp [conforms] at hc
    | slice _ => simp [conforms] at hc
    | array _ _ => simp [conforms] at hc
  | et, .vcons (.scalar p) es, hc, hn => by
    simp only [conformsElems, Bool.and_eq_true] at hc
    simp only [noNilSliceList, Bool.and_eq_true] at hn
    simp only [copyElems]
    rw [copyElems_id et es hc.2 hn.2]
  | et, .vcons (.slice b c ses) es, hc, hn => by
    simp only [conformsElems, Bool.and_eq_true] at hc
    simp only [noNilSliceList, Bool.and_eq_true] at hn
    simp only [copyElems]
    rw [copyElems_id et es hc.2 hn.2]
  | et, .vcons (.array aes) es, hc, hn => by
    simp only [conformsElems, Bool.and_eq_true] at hc
    simp only [noNilSliceList, Bool.and_eq_true] at hn
    simp only [copyElems]
    rw [copyElems_id et es hc.2 hn.2]

end

theorem applyFields_append : ∀ (rt : GoType) (target : GoVal)
    (a b : List FieldsData),
    applyFields rt target (a ++ b) =
      match applyFields rt target a with
      | some w => applyFields rt w b
      | none => none
  | _, _, [], _ => rfl
  | rt, target, e :: es, b => by
    simp only [List.cons_append, applyFields]
    cases hs : setField rt target e.1 e.2.1 with
    | none => rfl
    | some p => exact applyFields_append rt p.1 es b

theorem getFieldsLoop_nonempty : ∀ (fs : GoFields) (vs : GoVals)
    (e : FieldsData), e ∈ getFieldsLoop false fs vs → e.1 ≠ []
  | .nil, vs, e, h => by
    cases vs <;>
      exact absurd (show e ∈ ([] : List FieldsData) from h) (List.not_mem_nil e)
  | .fcons _ _ _ _ _, .nil, e, h => by
    exact absurd (show e ∈ ([] : List FieldsData) from h) (List.not_mem_nil e)
  | .fcons n tg ex ty fs, .vcons v vs, e, h => by
    cases ex with
    | false => exact getFieldsLoop_nonempty fs vs e h
    | true =>
      cases ty with
      | strct sfs =>
        have h2 : e ∈ ((getFields false (GoType.strct sfs) v).map
            (fun e2 => (n :: e2.1, e2.2.1, e2.2.2)))
            ++ getFieldsLoop false fs vs := h
        rw [List.mem_append] at h2
        cases h2 with
        | inr hr => exact getFieldsLoop_nonempty fs vs e hr
        | inl hl =>
          rw [List.mem_map] at hl
          obtain ⟨e2, _, heq⟩ := hl
          rw [← heq]
          simp
      | scalar k =>
        have h2 : e ∈ ([([n], v, tg)] : List FieldsData)
            ++ getFieldsLoop false fs vs := h
        rw [List.mem_append] at h2
        cases h2 with
        | inr hr => exact getFieldsLoop_nonempty fs vs e hr
        | inl hl =>
          rw [List.mem_singleton] at hl
          rw [hl]
          simp
      | slice et =>
        have h2 : e ∈ ([([n], v, tg)] : List FieldsData)
            ++ getFieldsLoop false fs vs := h
        rw [List.mem_append] at h2
        cases h2 with
        | inr hr => exact getFieldsLoop_nonempty fs vs e hr
        | inl hl =>
          rw [List.mem_singleton] at hl
          rw [hl]
          simp
      | array m et =>
        have h2 : e ∈ ([([n], v, tg)] : List FieldsData)
            ++ getFieldsLoop false fs vs := h
        rw [List.mem_append] at h2
        cases h2 with
        | inr hr => exact getFieldsLoop_nonempty fs vs e hr
        | inl hl =>
          rw [List.mem_singleton] at hl
          rw [hl]
          simp

theorem applyFields_prefixed : ∀ (entries : List FieldsData) (fs : GoFields)
    (vs : GoVals) (n : String) (i : Nat) (tg2 : String) (ex : Bool)
    (fty : GoType),
    findFieldIdx fs n = some (i, tg2, ex, fty) → i < vs.vlen →
    (∀ e ∈ entries, e.1 ≠ []) →
    applyFields (.strct fs) (.strct vs)
        (entries.map (fun e => (n :: e.1, e.2.1, e.2.2))) =
      match applyFields fty (vs.vgetD i (.scalar "")) entries with
      | some w => some (.strct (vs.vset i w))
      | none => none
  | [], fs, vs, n, i, tg2, ex, fty, hfind, hlen, _ => by
    simp only [List.map_nil, applyFields, vset_vgetD_self]
  | e :: es, fs, vs, n, i, tg2, ex, fty, hfind, hlen, hne => by
    have hhd : e.1 ≠ [] := hne e (List.mem_cons_self _ _)
    cases he : e.1 with
    | nil => exact absurd he hhd
    | cons q qs =>
      have hsf : setField (.strct fs) (.strct vs) (n :: e.1) e.2.1 =
          (setField fty (vs.vgetD i (.scalar "")) e.1 e.2.1).map
            (fun p => (.strct (vs.vset i p.1), p.2)) := by
        rw [he]
        show (match findFieldIdx fs n with
             | some (i, _, _, fty) =>
               (setField fty (vs.vgetD i (GoVal.scalar "")) (q :: qs) e.2.1).map
                 (fun (p : GoVal × Nat) => (GoVal.strct (vs.vset i p.1), p.2))
             | none => none) = _
        rw [hfind]
      cases hs : setField fty (vs.vgetD i (.scalar "")) e.1 e.2.1 with
      | none =>
        have hrhs : applyFields fty (vs.vgetD i (.scalar "")) (e :: es)
            = none := by
          show (match setField fty (vs.vgetD i (GoVal.scalar "")) e.1 e.2.1 with
               | some p => applyFields fty p.1 es
               | none => none) = none
          rw [hs]
        rw [hrhs]
        show (match setField (GoType.strct fs) (GoVal.strct vs) (n :: e.1)
              e.2.1 with
             | some p => applyFields (GoType.strct fs) p.1
                 (List.map (fun e => (n :: e.1, e.2.1, e.2.2)) es)
             | none => none) = none
        rw [hsf, hs]
        rfl
      | some p =>
        have ih := applyFields_prefixed es fs (vs.vset i p.1) n i tg2 ex fty
          hfind (by rw [vset_vlen]; exact hlen)
          (fun e2 h2 => hne e2 (List.mem_cons_of_mem _ h2))
        rw [vgetD_vset vs i p.1 (.scalar "") hlen] at ih
        have hrhs : applyFields fty (vs.vgetD i (.scalar "")) (e :: es)
            = applyFields fty p.1 es := by
          show (match setField fty (vs.vgetD i (GoVal.scalar "")) e.1 e.2.1 with
               | some p => applyFields fty p.1 es
               | none => none) = _
          rw [hs]
        rw [hrhs]
        show (match setField (GoType.strct fs) (GoVal.strct vs) (n :: e.1)
              e.2.1 with
             | some p2 => applyFields (GoType.strct fs) p2.1
                 (List.map (fun e => (n :: e.1, e.2.1, e.2.2)) es)
             | none => none) =
          match applyFields fty p.1 es with
          | some w => some (GoVal.strct (vs.vset i w))
          | none => none
        rw [hsf, hs]
        show applyFields (GoType.strct fs) (GoVal.strct (vs.vset i p.1))
            (List.map (fun e => (n :: e.1, e.2.1, e.2.2)) es) = _
        rw [ih]
        cases ha : applyFields fty p.1 es with
        | none => rfl
        | some w => simp only [vset_vset]

def suffixIndexed (full : GoFields) : Nat → GoFields → Prop
  | _, .nil => True
  | b, .fcons n tg ex ty rest =>
    findFieldIdx full n = some (b, tg, ex, ty) ∧ suffixIndexed full (b + 1) rest

theorem suffixIndexed_lift : ∀ (suf : GoFields) (b : Nat) (n0 tg0 : String)
    (ex0 : Bool) (ty0 : GoType) (full2 : GoFields),
    suffixIndexed full2 b suf → ¬ n0 ∈ fieldNames full2 →
    suffixIndexed (.fcons n0 tg0 ex0 ty0 full2) (b + 1) suf
  | .nil, _, _, _, _, _, _, _, _ => trivial
  | .fcons n tg ex ty rest, b, n0, tg0, ex0, ty0, full2, h, hn0 => by
    simp only [suffixIndexed] at h
    refine ⟨?_, suffixIndexed_lift rest (b + 1) n0 tg0 ex0 ty0 full2 h.2 hn0⟩
    rw [findFieldIdx]
    have hne : ¬(n0 == n) = true := by
      intro hb
      have hq : n0 = n := by simpa using hb
      exact hn0 (hq ▸ findFieldIdx_mem full2 n _ h.1)
    rw [if_neg hne, h.1]
    rfl

theorem suffixIndexed_self : ∀ (fs : GoFields),
    nodupNames (fieldNames fs) = true → suffixIndexed fs 0 fs
  | .nil, _ => trivial
  | .fcons n0 tg0 ex0 ty0 rest, h => by
    simp only [fieldNames, nodupNames, Bool.and_eq_true,
      Bool.not_eq_true'] at h
    refine ⟨?_, ?_⟩
    · rw [findFieldIdx, if_pos (by simp)]
    · exact suffixIndexed_lift rest 0 n0 tg0 ex0 ty0 rest
        (suffixIndexed_self rest h.2)
        ((contains_false_iff (fieldNames rest) n0).mp h.1)

theorem vappend_nil_right : ∀ (a : GoVals), a.vappend .nil = a
  | .nil => rfl
  | .vcons v rest => by simp [GoVals.vappend, vappend_nil_right rest]

theorem vtake_full : ∀ (ws : GoVals) (b : Nat), ws.vlen ≤ b → ws.vtake b = ws
  | .nil, b, _ => by cases b <;> rfl
  | .vcons v rest, b, h => by
    cases b with
    | zero => simp only [GoVals.vlen] at h; omega
    | succ b2 =>
      simp only [GoVals.vlen] at h
      simp [GoVals.vtake, vtake_full rest b2 (by omega)]

theorem applyFields_suffix : ∀ (vsuf : GoVals) (fsuf : GoFields)
    (full : GoFields) (b : Nat) (ws : GoVals),
    suffixIndexed full b fsuf →
    conformsFields fsuf vsuf = true →
    allExportedFields fsuf = true →
    wfNamesFields fsuf = true →
    noNilSliceList vsuf = true →
    conformsFields full ws = true →
    b + fsuf.flen = ws.vlen →
    applyFields (.strct full) (.strct ws) (getFieldsLoop false fsuf vsuf) =
      some (.strct ((ws.vtake b).vappend vsuf))
  | vsuf, .nil, full, b, ws, _, hc, _, _, _, _, hlen => by
    cases vsuf with
    | vcons _ _ => simp [conformsFields] at hc
    | nil =>
      simp only [GoFields.flen] at hlen
      have h1 : ws.vtake b = ws := vtake_full ws b (by omega)
      show some (GoVal.strct ws) = _
      simp only [vappend_nil_right, h1]
  | .nil, .fcons _ _ _ _ _, full, b, ws, _, hc, _, _, _, _, _ => by
    simp [conformsFields] at hc
  | .vcons v vs, .fcons n tg ex ty rest, full, b, ws,
      hsi, hc, hex, hwf, hnil, hws, hlen => by
    simp only [suffixIndexed] at hsi
    obtain ⟨hfind, hsirest⟩ := hsi
    simp only [conformsFields, Bool.and_eq_true] at hc
    simp only [allExportedFields, Bool.and_eq_true] at hex
    simp only [wfNamesFields, Bool.and_eq_true] at hwf
    simp only [noNilSliceList, Bool.and_eq_true] at hnil
    simp only [GoFields.flen] at hlen
    have hblt : b < ws.vlen := by omega
    cases ex with
    | false => exact absurd hex.1.1 (by simp)
    | true =>
      have tailstep : ∀ (block : List FieldsData),
          getFieldsLoop false (GoFields.fcons n tg true ty rest)
            (GoVals.vcons v vs) = block ++ getFieldsLoop false rest vs →
          applyFields (GoType.strct full) (GoVal.strct ws) block =
            some (GoVal.strct (ws.vset b v)) →
          applyFields (GoType.strct full) (GoVal.strct ws)
            (getFieldsLoop false (GoFields.fcons n tg true ty rest)
              (GoVals.vcons v vs)) =
            some (.strct ((ws.vtake b).vappend (GoVals.vcons v vs))) := by
        intro block hsp hfst
        rw [hsp, applyFields_append, hfst]
        show applyFields (GoType.strct full) (GoVal.strct (ws.vset b v))
          (getFieldsLoop false rest vs) = _
        have hconf2 : conformsFields full (ws.vset b v) = true :=
          conformsFields_vset full n b tg true ty ws v hfind hws hc.1
        have ihrec := applyFields_suffix vs rest full (b + 1) (ws.vset b v)
          hsirest hc.2 hex.2 hwf.2 hnil.2 hconf2
          (by rw [vset_vlen]; omega)
        rw [ihrec, vtake_vset_succ ws b v hblt, vappend_cons_mid]
      cases ty with
      | scalar k =>
        refine tailstep [([n], v, tg)] rfl ?_
        have hset : setField (GoType.strct full) (GoVal.strct ws) [n] v =
            some (GoVal.strct (ws.vset b v), 0) := by
          show (match findFieldIdx full n with
               | some (i, _, _, fty) =>
                 match fty with
                 | GoType.slice et =>
                   some (GoVal.strct (ws.vset i (setArray (GoType.slice et) v)), 0)
                 | GoType.array m et =>
                   some (GoVal.strct (ws.vset i (setArray (GoType.array m et) v)), 0)
                 | _ => some (GoVal.strct (ws.vset i v), 0)
               | none => some (GoVal.strct ws, 2)) = _
          rw [hfind]
        show (match setField (GoType.strct full) (GoVal.strct ws) [n] v with
             | some p => applyFields (GoType.strct full) p.1 []
             | none => none) = _
        rw [hset]
        rfl
      | slice et =>
        refine tailstep [([n], v, tg)] rfl ?_
        have hid : setArray (GoType.slice et) v = v :=
          copyVal_id (GoType.slice et) v hc.1 hnil.1
        have hset : setField (GoType.strct full) (GoVal.strct ws) [n] v =
            some (GoVal.strct (ws.vset b (setArray (GoType.slice et) v)), 0) := by
          show (match findFieldIdx full n with
               | some (i, _, _, fty) =>
                 match fty with
                 | GoType.slice et2 =>
                   some (GoVal.strct (ws.vset i (setArray (GoType.slice et2) v)), 0)
                 | GoType.array m et2 =>
                   some (GoVal.strct (ws.vset i (setArray (GoType.array m et2) v)), 0)
                 | _ => some (GoVal.strct (ws.vset i v), 0)
               | none => some (GoVal.strct ws, 2)) = _
          rw [hfind]
        rw [hid] at hset
        show (match setField (GoType.strct full) (GoVal.strct ws) [n] v with
             | some p => applyFields (GoType.strct full) p.1 []
             | none => none) = _
        rw [hset]
        rfl
      | array m et =>
        refine tailstep [([n], v, tg)] rfl ?_
        have hid : setArray (GoType.array m et) v = v :=
          copyVal_id (GoType.array m et) v hc.1 hnil.1
        have hset : setField (GoType.strct full) (GoVal.strct ws) [n] v =
            some (GoVal.strct (ws.vset b (setArray (GoType.array m et) v)), 0) := by
          show (match findFieldIdx full n with
               | some (i, _, _, fty) =>
                 match fty with
                 | GoType.slice et2 =>
                   some (GoVal.strct (ws.vset i (setArray (GoType.slice et2) v)), 0)
                 | GoType.array m2 et2 =>
                   some (GoVal.strct (ws.vset i (setArray (GoType.array m2 et2) v)), 0)
                 | _ => some (GoVal.strct (ws.vset i v), 0)
               | none => some (GoVal.strct ws, 2)) = _
          rw [hfind]
        rw [hid] at hset
        show (match setField (GoType.strct full) (GoVal.strct ws) [n] v with
             | some p => applyFields (GoType.strct full) p.1 []
             | none => none) = _
        rw [hset]
        rfl
      | strct sfs =>
        cases v with
        | scalar _ => simp [conforms] at hc
        | slice _ _ _ => simp [conforms] at hc
        | array _ => simp [conforms] at hc
        | strct vfs =>
          refine tailstep ((getFieldsLoop false sfs vfs).map
            (fun (e2 : FieldsData) => (n :: e2.1, e2.2.1, e2.2.2))) rfl ?_
          rw [applyFields_prefixed (getFieldsLoop false sfs vfs) full ws n b
            tg true (GoType.strct sfs) hfind hblt
            (getFieldsLoop_nonempty sfs vfs)]
          have hcT : conforms (GoType.strct sfs)
              (ws.vgetD b (GoVal.scalar "")) = true :=
            findFieldIdx_conforms full n b tg true (GoType.strct sfs) ws
              (GoVal.scalar "") hfind hws
          cases hT : ws.vgetD b (GoVal.scalar "") with
          | scalar _ => rw [hT] at hcT; simp [conforms] at hcT
          | slice _ _ _ => rw [hT] at hcT; simp [conforms] at hcT
          | array _ => rw [hT] at hcT; simp [conforms] at hcT
          | strct tws =>
            rw [hT] at hcT
            simp only [conforms] at hcT
            have hwfs := hwf.1
            simp only [wfNames, Bool.and_eq_true] at hwfs
            have hcin : conformsFields sfs vfs = true := by
              have h2 := hc.1
              simp only [conforms] at h2
              exact h2
            have hexin : allExportedFields sfs = true := by
              have h2 := hex.1.2
              simp only [allExported] at h2
              exact h2
            have hnin : noNilSliceList vfs = true := by
              have h2 := hnil.1
              simp only [noNilSlice] at h2
              exact h2
            have hinner := applyFields_suffix vfs sfs sfs 0 tws
              (suffixIndexed_self sfs hwfs.1) hcin hexin hwfs.2 hnin hcT
              (by rw [conformsFields_vlen sfs tws hcT]; omega)
            rw [vtake_zero, vappend_nil_left] at hinner
            rw [hinner]

/-- C1: the decode-transplant round trip of configParser.apply.  For every
conforming record value of a well-formed struct schema (duplicate-free
field identifiers, every reachable field exported) that the shadow-type
synthesizer accepts, and in which every slice is non-nil, decoding the
canonical serialization in any format into a shadow instance, enumerating
its leaf fields with getFields and transplanting each into a fresh
zero-valued target with setField reproduces the value exactly — hence a
target deeply equal to the original, for all formats independently.  (The
claim as stated, without the nil-slice restriction, is refuted by the
companion counterexample: setArray rebuilds every slice non-nil, and
reflect.DeepEqual distinguishes a nil slice from an empty one.) -/
theorem transplant_roundtrip (fs : GoFields) (vs : GoVals) (fmt : ConfigType)
    (hc : conformsFields fs vs = true)
    (hwf : wfNames (.strct fs) = true)
    (hex : allExportedFields fs = true)
    (hnil : noNilSliceList vs = true)
    (hok : (createModifiedType (.strct fs)).isOk = true) :
    ∃ w, transplantPipeline fmt (.strct fs) (.strct vs) = some w ∧
      deepEq w (.strct vs) = true := by
  have hwf2 := hwf
  simp only [wfNames, Bool.and_eq_true] at hwf2
  have hz := conformsFields_zeroFields fs
  have hlen : 0 + fs.flen = (zeroFields fs).vlen := by
    rw [conformsFields_vlen fs (zeroFields fs) hz]
    omega
  have hmain := applyFields_suffix vs fs fs 0 (zeroFields fs)
    (suffixIndexed_self fs hwf2.1) hc hex hwf2.2 hnil hz hlen
  rw [vtake_zero, vappend_nil_left] at hmain
  refine ⟨.strct vs, ?_, deepEq_refl _⟩
  cases fmt <;> exact hmain

/-- Witness for the round-trip claim: a three-field record (a scalar, a
nested struct, a non-nil two-element slice) round-trips through the TOML
pipeline to a value deeply equal to itself. -/
theorem transplant_roundtrip_witness :
    ∃ w, transplantPipeline .toml
        (.strct (GoFields.fcons "Thing" "" true (.scalar "string")
          (GoFields.fcons "Inner" "" true
            (.strct (GoFields.fcons "M" "" true (.scalar "string") .nil))
            (GoFields.fcons "Things" "" true (.slice (.scalar "string")) .nil))))
        (.strct (GoVals.vcons (.scalar "x")
          (GoVals.vcons (.strct (GoVals.vcons (.scalar "y") .nil))
            (GoVals.vcons (.slice false 2
              (GoVals.vcons (.scalar "a") (GoVals.vcons (.scalar "b") .nil)))
              .nil)))) = some w ∧
      deepEq w (.strct (GoVals.vcons (.scalar "x")
          (GoVals.vcons (.strct (GoVals.vcons (.scalar "y") .nil))
            (GoVals.vcons (.slice false 2
              (GoVals.vcons (.scalar "a") (GoVals.vcons (.scalar "b") .nil)))
              .nil)))) = true :=
  transplant_roundtrip
    (GoFields.fcons "Thing" "" true (.scalar "string")
      (GoFields.fcons "Inner" "" true
        (.strct (GoFields.fcons "M" "" true (.scalar "string") .nil))
        (GoFields.fcons "Things" "" true (.slice (.scalar "string")) .nil)))
    (GoVals.vcons (.scalar "x")
      (GoVals.vcons (.strct (GoVals.vcons (.scalar "y") .nil))
        (GoVals.vcons (.slice false 2
          (GoVals.vcons (.scalar "a") (GoVals.vcons (.scalar "b") .nil)))
          .nil)))
    .toml (by decide) (by decide) (by decide) (by decide) (by decide)

/-- C1 counterexample: a record holding a nil slice satisfies every
hypothesis of the stated round trip (conforming, well-formed, exported,
accepted by the shadow synthesizer), yet the pipeline returns a value that
is NOT deeply equal to the original: setArray allocates the result with
MakeSlice, so the nil slice comes back non-nil, and reflect.DeepEqual
distinguishes the two. -/
theorem transplant_nil_slice_counterexample :
    (conformsFields
        (GoFields.fcons "Things" "" true (.slice (.scalar "string")) .nil)
        (GoVals.vcons (GoVal.slice true 0 .nil) .nil) = true) ∧
    (wfNames (.strct
        (GoFields.fcons "Things" "" true (.slice (.scalar "string")) .nil))
      = true) ∧
    (allExportedFields
        (GoFields.fcons "Things" "" true (.slice (.scalar "string")) .nil)
      = true) ∧
    ((createModifiedType (.strct
        (GoFields.fcons "Things" "" true (.slice (.scalar "string")) .nil))).isOk
      = true) ∧
    ((transplantPipeline .json
        (.strct (GoFields.fcons "Things" "" true (.slice (.scalar "string")) .nil))
        (.strct (GoVals.vcons (GoVal.slice true 0 .nil) .nil))).map
      (fun w => deepEq w (.strct (GoVals.vcons (GoVal.slice true 0 .nil) .nil)))
      = some false) := by
  refine ⟨by decide, by decide, by decide, by decide, by decide⟩
